import Mathlib

/-
Verification of the `intersections` repository's core data structures:
the fixed-capacity buffer `fixed_vector` (src/intersections.cpp, second
document part), the weak-handle shapes (`weak_pair` and friends in
src/src/util/weak_unordered_set.h), and the Robin Hood weak hash table
`rh_weak_unordered_set` (first document part of the same header).

Modelling conventions (shallow embedding):
- A `std::shared_ptr`/`std::weak_ptr` target is identified by a natural
  number id `p`.  The external world supplies two functions:
  `val : Nat → Nat` gives the pointee value stored at id `p`, and
  `alive : Nat → Bool` tells whether any strong owner of `p` remains.
  `weak_ptr::lock()` succeeds exactly when `alive p` holds; `expired()`
  is its negation.  This follows the single-threaded semantics of the
  code (Section 5 of the design: no concurrent expiry mid-operation).
- The table is instantiated at its default template arguments
  (`Hash` is the caller-supplied hash function `F : Nat → Nat`,
  `KeyEqual` is `std::equal_to`, i.e. equality of pointee values).
- `size_t` is 64 bits wide, so the stolen-bit mask keeps the low 63
  bits of a hash code, exactly as in the source.
- The C++ `for(;;)` probe loops are written with an explicit fuel
  argument; lemmas show the fuel used by the table (capacity bounds)
  never runs out, so the embedding computes the same answers.
-/

namespace Intersections

/-! ## fixed_vector (src/intersections.cpp, lines 46-191 of the file)

The buffer owns `size_` slots.  We record the `size_` field and the list
of currently constructed elements separately, because `clear()` destroys
the elements without touching `size_`. -/

structure fixed_vector (X : Type) where
  size_ : Nat
  data : List X
deriving Repr, DecidableEq

/-- mkFixedVector models `fixed_vector(size, element)`: `size_` is set and
`allocate_` copy-constructs `size` elements from the example element. -/
def mkFixedVector {X : Type} (n : Nat) (element : X) : fixed_vector X :=
  ⟨n, List.replicate n element⟩

/-- size models `size()`, which returns the `size_` field. -/
def fixed_vector.size {X : Type} (v : fixed_vector X) : Nat :=
  v.size_

/-- clear models `fixed_vector::clear()`: when `size_ != 0` it calls
`deallocate_()` (destroying every constructed element) and then
`allocate_(allocator_, 0)` (constructing zero elements).  The `size_`
field is left untouched by the source. -/
def fixed_vector.clear {X : Type} (v : fixed_vector X) : fixed_vector X :=
  if v.size_ ≠ 0 then { size_ := v.size_, data := [] } else v

/-- moveConstruct models the move constructor
`fixed_vector(fixed_vector&& other) : fixed_vector() { swap(other); }`:
the target delegates to the default constructor (size 0, no elements)
and then swaps wholesale with the source.  The result is the pair
(new target, what the source is left holding). -/
def fixed_vector.moveConstruct {X : Type} (other : fixed_vector X) :
    fixed_vector X × fixed_vector X :=
  (⟨other.size_, other.data⟩, ⟨0, []⟩)

/-- moveAssign models `operator=(fixed_vector&& other)`:
`swap(other); other.clear();`.  The result is the pair
(new target, what the source is left holding). -/
def fixed_vector.moveAssign {X : Type} (target other : fixed_vector X) :
    fixed_vector X × fixed_vector X :=
  (⟨other.size_, other.data⟩, fixed_vector.clear ⟨target.size_, target.data⟩)

/-- atc models the bounds-checked accessor `at(index)`:
`if (index >= size_) throw std::range_error(...); return data_[index];`.
`none` stands for the thrown `std::range_error`. -/
def fixed_vector.atc {X : Type} [Inhabited X] (v : fixed_vector X) (index : Nat) :
    Option X :=
  if v.size_ ≤ index then none else some (v.data.getD index default)

/-! ## weak_pair (weak_unordered_set.h, lines 749-796)

The pair-both-weak handle shape: two weak references.  A view
(`view_type`) is a pair of possibly-null strong pointers; the C++
`{nullptr, nullptr}` is `(none, none)`. -/

structure weak_pair where
  first : Nat
  second : Nat
deriving Repr, DecidableEq

/-- expired models `weak_pair::expired()`:
`first.expired() || second.expired()`. -/
def weak_pair.expired (alive : Nat → Bool) (h : weak_pair) : Bool :=
  !alive h.first || !alive h.second

/-- lock models `weak_pair::lock()`: lock the key side, then the value
side; if both succeed return the pair of strong pointers, otherwise
return `{nullptr, nullptr}`.  The handle itself is `const` here and is
not modified by the attempt. -/
def weak_pair.lock (alive : Nat → Bool) (h : weak_pair) :
    Option Nat × Option Nat :=
  if alive h.first then
    if alive h.second then (some h.first, some h.second)
    else (none, none)
  else (none, none)

/-- keyOf models the static `weak_pair::key(view)`: the key side of the
view when it is non-null, otherwise null. -/
def weak_pair.keyOf (view : Option Nat × Option Nat) : Option Nat :=
  view.fst

/-! ## Buckets and the table state (weak_unordered_set.h, lines 20-379)

A bucket packs a weak pointer, a one-bit used flag, and a 63-bit
truncated hash code.  A default-constructed bucket has an empty weak
pointer (`ptr = none`), `used_ = 0` and `hash_code_ = 0`. -/

def number_of_hash_bits_ : Nat := 63

def hash_code_mask_ : Nat := 2 ^ number_of_hash_bits_ - 1

/-- mhash models `real_hasher::operator()`: the client hash masked to
the low 63 bits, `hash_(value) & hash_code_mask_`. -/
def mhash (F : Nat → Nat) (value : Nat) : Nat :=
  F value &&& hash_code_mask_

structure Bucket where
  ptr : Option Nat
  used : Bool
  hash_code : Nat
deriving Repr, DecidableEq

/-- emptyBucket is the default-constructed bucket: empty weak pointer,
`used_(0)`, `hash_code_(0)`. -/
def emptyBucket : Bucket :=
  ⟨none, false, 0⟩

/-- lockB models `bucket.ptr_.lock()`: a strong pointer when the weak
pointer is non-empty and its target still has a strong owner. -/
def lockB (alive : Nat → Bool) (b : Bucket) : Option Nat :=
  match b.ptr with
  | some p => if alive p then some p else none
  | none => none

/-- occupiedB models `Bucket::occupied()`: `used_ && !ptr_.expired()`. -/
def occupiedB (alive : Nat → Bool) (b : Bucket) : Bool :=
  b.used && (lockB alive b).isSome

structure Table where
  buckets : List Bucket
  size_ : Nat
deriving Repr, DecidableEq

/-- cap is `buckets_.size()`, the current capacity. -/
def Table.cap (T : Table) : Nat :=
  T.buckets.length

/-- mkTable models the constructor: `capacity` default-initialized
buckets and `size_(0)`. -/
def mkTable (capacity : Nat) : Table :=
  ⟨List.replicate capacity emptyBucket, 0⟩

/-- which_bucket_ models `hash_code % buckets_.size()`. -/
def which_bucket_ (cap hash_code : Nat) : Nat :=
  hash_code % cap

/-- next_bucket_ models `(pos + 1) % buckets_.size()`. -/
def next_bucket_ (cap pos : Nat) : Nat :=
  (pos + 1) % cap

/-- probe_distance_ models the wrapped forward distance from a bucket's
preferred (home) slot to its actual slot. -/
def probe_distance_ (cap actual preferred : Nat) : Nat :=
  if preferred ≤ actual then actual - preferred
  else actual + cap - preferred

/-- bucketAt reads `buckets_[pos]`, with the default bucket standing in
for an out-of-range read (never exercised: positions are reduced
modulo the capacity). -/
def bucketAt (bs : List Bucket) (pos : Nat) : Bucket :=
  bs.getD pos emptyBucket

/-! ## lookup_ of rh_weak_unordered_set (lines 202-224)

The loop walks the probe sequence.  It stops with null on an unused
bucket or when the searcher's distance exceeds the bucket's own probe
distance (the Robin Hood shortcut); it stops with the bucket when the
truncated hashes match, the bucket's pointer locks, and the locked
value compares equal to the searched key.  The fuel `cap + 1` is enough
for the loop to reach one of its exits (`lookup_fuel` lemmas below). -/

def lookupLoop (alive : Nat → Bool) (val : Nat → Nat) (bs : List Bucket)
    (hash_code key : Nat) : Nat → Nat → Nat → Option Nat
  | 0, _, _ => none
  | fuel + 1, pos, dist =>
    let b := bucketAt bs pos
    if !b.used then none
    else if dist > probe_distance_ bs.length pos
        (which_bucket_ bs.length b.hash_code) then none
    else if hash_code == b.hash_code &&
        (match lockB alive b with
         | some locked => val locked == key
         | none => false) then some pos
    else lookupLoop alive val bs hash_code key fuel
        (next_bucket_ bs.length pos) (dist + 1)

/-- lookup_ models `rh_weak_unordered_set::lookup_(key)`, returning the
position of the found bucket (the C++ returns a pointer to it). -/
def lookup_ (alive : Nat → Bool) (val : Nat → Nat) (F : Nat → Nat)
    (T : Table) (key : Nat) : Option Nat :=
  let hash_code := mhash F key
  lookupLoop alive val T.buckets hash_code key (T.cap + 1)
    (which_bucket_ T.cap hash_code) 0

/-- member models `member(key)`: `lookup_(key) != nullptr`. -/
def member (alive : Nat → Bool) (val : Nat → Nat) (F : Nat → Nat)
    (T : Table) (key : Nat) : Bool :=
  (lookup_ alive val F T key).isSome

/-! ## insert_ of rh_weak_unordered_set (lines 251-301)

Branches, in source order: claim an unused bucket (incrementing the
size counter); reclaim a bucket whose pointer no longer locks; replace
a bucket whose hash and locked value match the incoming one; otherwise
Robin Hood displacement when the incoming distance is strictly larger
than the resident's.  The boolean the C++ function returns is dropped:
both public `insert` overloads discard it. -/

def insertLoop (alive : Nat → Bool) (val : Nat → Nat) :
    Nat → List Bucket → Nat → Nat → Nat → Nat → Nat →
    Option (List Bucket × Nat)
  | 0, _, _, _, _, _, _ => none
  | fuel + 1, bs, size, hash_code, p, pos, dist =>
    let b := bucketAt bs pos
    if !b.used then
      some (bs.set pos ⟨some p, true, hash_code⟩, size + 1)
    else
      match lockB alive b with
      | none => some (bs.set pos ⟨some p, true, hash_code⟩, size)
      | some locked =>
        if hash_code == b.hash_code && val locked == val p then
          some (bs.set pos ⟨some p, true, b.hash_code⟩, size)
        else
          let existing := probe_distance_ bs.length pos
            (which_bucket_ bs.length b.hash_code)
          if existing < dist then
            insertLoop alive val fuel
              (bs.set pos ⟨some p, true, hash_code⟩) size
              b.hash_code locked (next_bucket_ bs.length pos) (existing + 1)
          else
            insertLoop alive val fuel bs size hash_code p
              (next_bucket_ bs.length pos) (dist + 1)

/-- insert_ models the private `insert_(hash_code, ptr)` entry point,
starting the walk at the hash code's home bucket.  The fuel `cap`
suffices whenever a claimable slot exists (shown below). -/
def insert_ (alive : Nat → Bool) (val : Nat → Nat) (T : Table)
    (hash_code p : Nat) : Option Table :=
  match insertLoop alive val T.cap T.buckets T.size_ hash_code p
      (which_bucket_ T.cap hash_code) 0 with
  | some (bs, size) => some ⟨bs, size⟩
  | none => none

/-! ## resize_ and maybe_grow_ (lines 175-200) -/

/-- reinsertAll models the migration loop of `resize_`: scan the old
buckets in order; for each used bucket whose pointer still locks,
re-insert it with its stored hash code. -/
def reinsertAll (alive : Nat → Bool) (val : Nat → Nat) :
    List Bucket → Option Table → Option Table
  | [], acc => acc
  | b :: rest, acc =>
    reinsertAll alive val rest
      (match acc with
       | none => none
       | some T =>
         if b.used then
           match lockB alive b with
           | some p => insert_ alive val T b.hash_code p
           | none => some T
         else some T)

/-- resize_ models `resize_(new_capacity)`: assert
`new_capacity > size_` (a failing assertion is modelled as `none`),
swap in a fresh buffer of `new_capacity` default buckets, reset the
size counter, and migrate every still-lockable used bucket. -/
def resize_ (alive : Nat → Bool) (val : Nat → Nat) (T : Table)
    (new_capacity : Nat) : Option Table :=
  if new_capacity ≤ T.size_ then none
  else reinsertAll alive val T.buckets (some (mkTable new_capacity))

/-- maybe_grow_ models the growth check after an insert:
`double(size_) / double(cap) > 0.75` is the exact rational comparison
`4 * size_ > 3 * cap` (both counts are far below 2^53, so the floating
point division is exact enough to agree), and growth doubles the
capacity. -/
def maybe_grow_ (alive : Nat → Bool) (val : Nat → Nat) (T : Table) :
    Option Table :=
  if 4 * T.size_ > 3 * T.cap then resize_ alive val T (2 * T.cap)
  else some T

/-- insert models the public `insert(ptr)`: hash the pointee, run
`insert_`, then `maybe_grow_`. -/
def insert (alive : Nat → Bool) (val : Nat → Nat) (F : Nat → Nat)
    (T : Table) (p : Nat) : Option Table :=
  match insert_ alive val T (mhash F (val p)) p with
  | some T1 => maybe_grow_ alive val T1
  | none => none

/-! ## Iteration (lines 334-379)

`begin()` positions the iterator at the first bucket and `find_next_`
skips every bucket that is not `occupied()` (not used, or expired);
dereferencing yields the bucket's pointer.  The full traversal
therefore yields the pointers of the occupied buckets in order. -/

/-- iterPtrs is the sequence of strong pointers produced by iterating
from `begin()` to `end()`: one per bucket that is used and whose weak
pointer still locks. -/
def iterPtrs (alive : Nat → Bool) (T : Table) : List Nat :=
  T.buckets.filterMap fun b => if occupiedB alive b then b.ptr else none

/-- iterVals is the corresponding sequence of pointee values. -/
def iterVals (alive : Nat → Bool) (val : Nat → Nat) (T : Table) : List Nat :=
  (iterPtrs alive T).map val

/-! ## lookup_ of rh_weak_hash_table (lines 1080-1104)

The generic table's lookup, instantiated at the lone-weak-pointer shape
used by the `weak_unordered_set` alias (`weak_traits<std::weak_ptr>`:
`view_type = strong_type = shared_ptr`, `key(view) = view.get()`).
Inside the loop the declaration `const auto* key = weak_trait::key(locked)`
shadows the `key` parameter, so the equality test `equal_(*locked, *key)`
compares the bucket's own pointee with itself.  The embedding reproduces
that faithfully. -/

def lookupLoopHT (alive : Nat → Bool) (val : Nat → Nat) (bs : List Bucket)
    (hash_code key : Nat) : Nat → Nat → Nat → Option Nat
  | 0, _, _ => none
  | fuel + 1, pos, dist =>
    let b := bucketAt bs pos
    if !b.used then none
    else if dist > probe_distance_ bs.length pos
        (which_bucket_ bs.length b.hash_code) then none
    else if hash_code == b.hash_code &&
        (match lockB alive b with
         | some locked => val locked == val locked
         | none => false) then some pos
    else lookupLoopHT alive val bs hash_code key fuel
        (next_bucket_ bs.length pos) (dist + 1)

/-- memberHT models `rh_weak_hash_table::member(key)` through the
generic table's `lookup_`. -/
def memberHT (alive : Nat → Bool) (val : Nat → Nat) (F : Nat → Nat)
    (T : Table) (key : Nat) : Bool :=
  let hash_code := mhash F key
  (lookupLoopHT alive val T.buckets hash_code key (T.cap + 1)
    (which_bucket_ T.cap hash_code) 0).isSome

/-! ## Derived predicates used in specifications -/

/-- matchB is the found-test of `lookup_` at bucket `q`: truncated
hashes agree, the bucket locks, and the locked value equals the key. -/
def matchB (alive : Nat → Bool) (val : Nat → Nat) (bs : List Bucket)
    (hash_code key q : Nat) : Bool :=
  hash_code == (bucketAt bs q).hash_code &&
  (match lockB alive (bucketAt bs q) with
   | some locked => val locked == key
   | none => false)

/-- freeB holds for a bucket that an insertion will always claim when
it reaches it: unused, or used but no longer lockable. -/
def freeB (alive : Nat → Bool) (b : Bucket) : Bool :=
  !b.used || (lockB alive b).isNone

/-- pdAt is the probe distance of the bucket at `q` from the home slot
of its stored hash code. -/
def pdAt (bs : List Bucket) (q : Nat) : Nat :=
  probe_distance_ bs.length q (which_bucket_ bs.length (bucketAt bs q).hash_code)

/-- liveValAt says bucket `q` is used, still lockable, and its pointee
value is `k`. -/
def liveValAt (alive : Nat → Bool) (val : Nat → Nat) (bs : List Bucket)
    (q k : Nat) : Prop :=
  (bucketAt bs q).used = true ∧
  ∃ p, (bucketAt bs q).ptr = some p ∧ alive p = true ∧ val p = k

/-! ## Arithmetic of the circular probe walk -/

theorem probe_distance_lt (cap a p : Nat) (ha : a < cap) (hp : p < cap) :
    probe_distance_ cap a p < cap := by
  unfold probe_distance_
  split <;> omega

theorem probe_distance_mod (cap b t : Nat) (hb : b < cap) (ht : t < cap) :
    probe_distance_ cap ((b + t) % cap) b = t := by
  unfold probe_distance_
  rcases Nat.lt_or_ge (b + t) cap with h | h
  · rw [Nat.mod_eq_of_lt h]
    split <;> omega
  · have h2 : b + t - cap < cap := by omega
    have : (b + t) % cap = b + t - cap := by
      rw [Nat.mod_eq_sub_mod h, Nat.mod_eq_of_lt h2]
    rw [this]
    split <;> omega

theorem probe_distance_decomp (cap i p : Nat) (hi : i < cap) (hp : p < cap) :
    (p + probe_distance_ cap i p) % cap = i := by
  unfold probe_distance_
  split
  · have : p + (i - p) = i := by omega
    rw [this, Nat.mod_eq_of_lt hi]
  · have : p + (i + cap - p) = i + cap := by omega
    rw [this, Nat.add_mod_right, Nat.mod_eq_of_lt hi]

theorem walk_mod_lt (cap b t : Nat) (hc : 0 < cap) : (b + t) % cap < cap :=
  Nat.mod_lt _ hc

theorem walk_inj (cap b s t : Nat) (hb : b < cap) (hs : s < cap) (ht : t < cap)
    (h : (b + s) % cap = (b + t) % cap) : s = t := by
  have h1 := probe_distance_mod cap b s hb hs
  have h2 := probe_distance_mod cap b t hb ht
  rw [h] at h1
  omega

theorem walk_add (cap b s t : Nat) : ((b + s) % cap + t) % cap = (b + (s + t)) % cap := by
  rw [Nat.mod_add_mod, Nat.add_assoc]

theorem next_bucket_walk (cap b t : Nat) :
    next_bucket_ cap ((b + t) % cap) = (b + (t + 1)) % cap := by
  unfold next_bucket_
  exact walk_add cap b t 1

/-! ## Helpers about bucket lists -/

theorem bucketAt_set_self (bs : List Bucket) (i : Nat) (b : Bucket)
    (h : i < bs.length) : bucketAt (bs.set i b) i = b := by
  unfold bucketAt
  rw [List.getD_eq_getElem?_getD, List.getElem?_set_self (by simpa using h)]
  rfl

theorem bucketAt_set_ne (bs : List Bucket) (i j : Nat) (b : Bucket)
    (h : i ≠ j) : bucketAt (bs.set i b) j = bucketAt bs j := by
  unfold bucketAt
  rw [List.getD_eq_getElem?_getD, List.getD_eq_getElem?_getD,
    List.getElem?_set_ne h]

theorem pdAt_set_ne (bs : List Bucket) (i j : Nat) (b : Bucket)
    (h : i ≠ j) : pdAt (bs.set i b) j = pdAt bs j := by
  unfold pdAt
  rw [bucketAt_set_ne bs i j b h, List.length_set]

theorem bucketAt_ge (bs : List Bucket) (q : Nat) (h : bs.length ≤ q) :
    bucketAt bs q = emptyBucket := by
  unfold bucketAt
  rw [List.getD_eq_getElem?_getD, List.getElem?_eq_none (by simpa using h)]
  rfl

theorem lt_length_of_used (bs : List Bucket) (q : Nat)
    (h : (bucketAt bs q).used = true) : q < bs.length := by
  by_contra hq
  rw [bucketAt_ge bs q (by omega)] at h
  simp [emptyBucket] at h

theorem lockB_some_iff (alive : Nat → Bool) (b : Bucket) (p : Nat) :
    lockB alive b = some p ↔ b.ptr = some p ∧ alive p = true := by
  unfold lockB
  cases hp : b.ptr with
  | none => simp
  | some q =>
    show (if alive q = true then some q else none) = some p ↔
      some q = some p ∧ alive p = true
    cases ha : alive q with
    | false =>
      rw [if_neg (by simp [ha])]
      constructor
      · intro h; exact absurd h (by simp)
      · rintro ⟨h1, h2⟩
        obtain rfl : q = p := Option.some_inj.mp h1
        rw [ha] at h2
        exact absurd h2 (by simp)
    | true =>
      rw [if_pos rfl]
      constructor
      · intro h
        obtain rfl : q = p := Option.some_inj.mp h
        exact ⟨rfl, ha⟩
      · rintro ⟨h1, _⟩
        exact h1

theorem pdAt_def (bs : List Bucket) (q : Nat) :
    probe_distance_ bs.length q
      (which_bucket_ bs.length (bucketAt bs q).hash_code) = pdAt bs q := rfl

/-! ## Facts about lookup_ -/

/-- lookupLoop_sound: a found bucket is used, stores the searched
truncated hash, and holds a live pointer whose pointee equals the key.
This is the only way `lookup_` produces a non-null result. -/
theorem lookupLoop_sound (alive : Nat → Bool) (val : Nat → Nat)
    (bs : List Bucket) (hash key : Nat) :
    ∀ fuel pos dist j,
      lookupLoop alive val bs hash key fuel pos dist = some j →
      (bucketAt bs j).used = true ∧ hash = (bucketAt bs j).hash_code ∧
      ∃ p, (bucketAt bs j).ptr = some p ∧ alive p = true ∧ val p = key := by
  intro fuel
  induction fuel with
  | zero => intro pos dist j h; exact absurd h (by simp [lookupLoop])
  | succ n ih =>
    intro pos dist j h
    rw [lookupLoop] at h
    split at h
    · exact absurd h (by simp)
    · split at h
      · exact absurd h (by simp)
      · split at h
        · rename_i hu hcut hmatch
          cases h
          refine ⟨by simpa using hu, ?_, ?_⟩
          · have := (Bool.and_eq_true _ _).mp hmatch
            exact eq_of_beq this.1
          · have hm := ((Bool.and_eq_true _ _).mp hmatch).2
            match hl : lockB alive (bucketAt bs pos) with
            | none => rw [hl] at hm; exact absurd hm (by simp)
            | some p =>
              rw [hl] at hm
              obtain ⟨hp, ha⟩ := (lockB_some_iff alive _ p).mp hl
              exact ⟨p, hp, ha, eq_of_beq (by simpa using hm)⟩
        · exact ih _ _ _ h

/-- lookup_sound: specialisation of `lookupLoop_sound` to the public
entry point. -/
theorem lookup_sound (alive : Nat → Bool) (val : Nat → Nat) (F : Nat → Nat)
    (T : Table) (key j : Nat) (h : lookup_ alive val F T key = some j) :
    (bucketAt T.buckets j).used = true ∧
    mhash F key = (bucketAt T.buckets j).hash_code ∧
    ∃ p, (bucketAt T.buckets j).ptr = some p ∧ alive p = true ∧ val p = key :=
  lookupLoop_sound alive val T.buckets (mhash F key) key _ _ _ j h

/-- lookupLoop_finds: if every bucket on the walk strictly before
offset `d` is used, has probe distance at least the walk offset, and
does not match, while the bucket at offset `d` is used, has probe
distance at least `d`, and matches, then the loop returns offset `d`'s
bucket.  This is the abstract shape behind insert-then-member. -/
theorem lookupLoop_finds (alive : Nat → Bool) (val : Nat → Nat)
    (bs : List Bucket) (hash key home d : Nat)
    (hpre : ∀ i, i < d →
      (bucketAt bs ((home + i) % bs.length)).used = true ∧
      i ≤ pdAt bs ((home + i) % bs.length) ∧
      matchB alive val bs hash key ((home + i) % bs.length) = false)
    (hused : (bucketAt bs ((home + d) % bs.length)).used = true)
    (hpd : d ≤ pdAt bs ((home + d) % bs.length))
    (hmatch : matchB alive val bs hash key ((home + d) % bs.length) = true) :
    ∀ k fuel dist, dist + k = d → k < fuel →
      lookupLoop alive val bs hash key fuel ((home + dist) % bs.length) dist =
        some ((home + d) % bs.length) := by
  intro k
  induction k with
  | zero =>
    intro fuel dist hdist hfuel
    match fuel, hfuel with
    | n + 1, _ =>
      have hd : dist = d := by omega
      subst hd
      rw [lookupLoop]
      simp only [hused, Bool.not_true]
      rw [if_neg (by simp)]
      rw [if_neg (by rw [pdAt_def]; omega)]
      rw [if_pos (by unfold matchB at hmatch; exact hmatch)]
  | succ m ih =>
    intro fuel dist hdist hfuel
    match fuel, hfuel with
    | n + 1, hfuel =>
      obtain ⟨hu, hpd2, hnm⟩ := hpre dist (by omega)
      rw [lookupLoop]
      simp only [hu, Bool.not_true]
      rw [if_neg (by simp)]
      rw [if_neg (by rw [pdAt_def]; omega)]
      rw [if_neg (by
        unfold matchB at hnm
        simp only [hnm]
        simp)]
      rw [next_bucket_walk]
      exact ih n (dist + 1) (by omega) (by omega)

/-- lookupLoop_reaches: membership variant of `lookupLoop_finds`; the
prefix buckets need only be used and deep enough, matches among them
just make the loop succeed earlier. -/
theorem lookupLoop_reaches (alive : Nat → Bool) (val : Nat → Nat)
    (bs : List Bucket) (hash key home d : Nat)
    (hpre : ∀ i, i < d →
      (bucketAt bs ((home + i) % bs.length)).used = true ∧
      i ≤ pdAt bs ((home + i) % bs.length))
    (hused : (bucketAt bs ((home + d) % bs.length)).used = true)
    (hpd : d ≤ pdAt bs ((home + d) % bs.length))
    (hmatch : matchB alive val bs hash key ((home + d) % bs.length) = true) :
    ∀ k fuel dist, dist + k = d → k < fuel →
      ∃ j, lookupLoop alive val bs hash key fuel ((home + dist) % bs.length) dist =
        some j := by
  intro k
  induction k with
  | zero =>
    intro fuel dist hdist hfuel
    match fuel, hfuel with
    | n + 1, _ =>
      have hd : dist = d := by omega
      subst hd
      refine ⟨(home + dist) % bs.length, ?_⟩
      rw [lookupLoop]
      simp only [hused, Bool.not_true]
      rw [if_neg (by simp)]
      rw [if_neg (by rw [pdAt_def]; omega)]
      rw [if_pos (by unfold matchB at hmatch; exact hmatch)]
  | succ m ih =>
    intro fuel dist hdist hfuel
    match fuel, hfuel with
    | n + 1, hfuel =>
      obtain ⟨hu, hpd2⟩ := hpre dist (by omega)
      by_cases hm : matchB alive val bs hash key ((home + dist) % bs.length) = true
      · refine ⟨(home + dist) % bs.length, ?_⟩
        rw [lookupLoop]
        simp only [hu, Bool.not_true]
        rw [if_neg (by simp)]
        rw [if_neg (by rw [pdAt_def]; omega)]
        rw [if_pos (by unfold matchB at hm; exact hm)]
      · rw [lookupLoop]
        simp only [hu, Bool.not_true]
        rw [if_neg (by simp)]
        rw [if_neg (by rw [pdAt_def]; omega)]
        rw [if_neg (by
          unfold matchB at hm
          simp only [Bool.not_eq_true] at hm
          simp only [hm]
          simp)]
        rw [next_bucket_walk]
        exact ih n (dist + 1) (by omega) (by omega)

/-! ## Counting used buckets -/

/-- usedCount is the number of buckets whose used bit is set.  The
table's size counter tracks exactly this quantity (shown below). -/
def usedCount (bs : List Bucket) : Nat :=
  (bs.filter fun b => b.used).length

theorem bucketAt_cons_succ (b : Bucket) (tl : List Bucket) (n : Nat) :
    bucketAt (b :: tl) (n + 1) = bucketAt tl n := rfl

theorem bucketAt_cons_zero (b : Bucket) (tl : List Bucket) :
    bucketAt (b :: tl) 0 = b := rfl

theorem usedCount_cons (b : Bucket) (tl : List Bucket) :
    usedCount (b :: tl) = (if b.used then 1 else 0) + usedCount tl := by
  unfold usedCount
  cases hb : b.used
  · simp [List.filter, hb]
  · simp [List.filter, hb]
    omega

theorem usedCount_le (bs : List Bucket) : usedCount bs ≤ bs.length := by
  induction bs with
  | nil => simp [usedCount]
  | cons b tl ih =>
    rw [usedCount_cons]
    cases b.used <;> simp <;> omega

theorem usedCount_set (bs : List Bucket) :
    ∀ i, i < bs.length → ∀ b2 : Bucket,
      usedCount (bs.set i b2) + (if (bucketAt bs i).used then 1 else 0) =
        usedCount bs + (if b2.used then 1 else 0) := by
  induction bs with
  | nil => intro i hi; exact absurd hi (by simp)
  | cons b tl ih =>
    intro i hi b2
    cases i with
    | zero =>
      simp only [List.set, bucketAt_cons_zero, usedCount_cons]
      omega
    | succ n =>
      simp only [List.set, bucketAt_cons_succ, usedCount_cons]
      have := ih n (by simpa using hi) b2
      omega

theorem exists_unused_of_lt (bs : List Bucket) (h : usedCount bs < bs.length) :
    ∃ u, u < bs.length ∧ (bucketAt bs u).used = false := by
  induction bs with
  | nil => simp [usedCount] at h
  | cons b tl ih =>
    rw [usedCount_cons] at h
    cases hb : b.used with
    | false => exact ⟨0, by simp, by rw [bucketAt_cons_zero]; exact hb⟩
    | true =>
      rw [hb] at h
      simp at h
      obtain ⟨u, hu, hu2⟩ := ih (by omega)
      exact ⟨u + 1, by simpa using hu, by rw [bucketAt_cons_succ]; exact hu2⟩

theorem usedCount_replicate_empty (n : Nat) :
    usedCount (List.replicate n emptyBucket) = 0 := by
  unfold usedCount
  rw [List.filter_eq_nil_iff.mpr]
  · rfl
  · intro b hb
    rw [List.eq_of_mem_replicate hb]
    simp [emptyBucket]

/-! ## The insertion walk: placement before any displacement

If every bucket strictly before offset `d` of the walk lets the
insertion continue (used, lockable, not matching, resident at least as
far from home as the walker), and the bucket at offset `d` stops it
through one of the three immediately-returning branches (unused,
expired, or matching), then `insert_` writes the incoming pointer there
and returns, incrementing the size counter exactly when the stopping
bucket was unused. -/

theorem insertLoop_stops (alive : Nat → Bool) (val : Nat → Nat)
    (bs : List Bucket) (size hash p home d : Nat)
    (hpre : ∀ i, i < d →
      (bucketAt bs ((home + i) % bs.length)).used = true ∧
      (lockB alive (bucketAt bs ((home + i) % bs.length))).isSome = true ∧
      matchB alive val bs hash (val p) ((home + i) % bs.length) = false ∧
      i ≤ pdAt bs ((home + i) % bs.length))
    (hstop :
      (bucketAt bs ((home + d) % bs.length)).used = false ∨
      ((bucketAt bs ((home + d) % bs.length)).used = true ∧
        lockB alive (bucketAt bs ((home + d) % bs.length)) = none) ∨
      ((bucketAt bs ((home + d) % bs.length)).used = true ∧
        matchB alive val bs hash (val p) ((home + d) % bs.length) = true)) :
    ∀ k fuel dist, dist + k = d → k < fuel →
      insertLoop alive val fuel bs size hash p ((home + dist) % bs.length) dist =
        some (bs.set ((home + d) % bs.length) ⟨some p, true, hash⟩,
          if (bucketAt bs ((home + d) % bs.length)).used then size else size + 1) := by
  intro k
  induction k with
  | zero =>
    intro fuel dist hdist hfuel
    match fuel, hfuel with
    | n + 1, _ =>
      have hd : dist = d := by omega
      subst hd
      rw [insertLoop]
      rcases hstop with hu | ⟨hu, hlk⟩ | ⟨hu, hm⟩
      · rw [if_pos (by simp [hu]), hu]
        simp
      · rw [if_neg (by simp [hu]), hu, hlk]
        simp
      · rw [if_neg (by simp [hu])]
        unfold matchB at hm
        obtain ⟨h1, h2⟩ := (Bool.and_eq_true _ _).mp hm
        match hl : lockB alive (bucketAt bs ((home + dist) % bs.length)) with
        | none => rw [hl] at h2; exact absurd h2 (by simp)
        | some l =>
          rw [hl] at h2
          have h2b : (val l == val p) = true := h2
          simp only []
          rw [if_pos ((Bool.and_eq_true _ _).mpr ⟨h1, h2b⟩)]
          have hhc : (bucketAt bs ((home + dist) % bs.length)).hash_code = hash :=
            (eq_of_beq h1).symm
          rw [hhc, hu]
          simp
  | succ m ih =>
    intro fuel dist hdist hfuel
    match fuel, hfuel with
    | n + 1, hfuel =>
      obtain ⟨hu, hlk, hnm, hpd⟩ := hpre dist (by omega)
      rw [insertLoop]
      rw [if_neg (by simp [hu])]
      match hl : lockB alive (bucketAt bs ((home + dist) % bs.length)) with
      | none => rw [hl] at hlk; exact absurd hlk (by simp)
      | some l =>
        unfold matchB at hnm
        rw [hl] at hnm
        have hnm2 : (hash == (bucketAt bs ((home + dist) % bs.length)).hash_code &&
            (val l == val p)) = false := hnm
        simp only []
        rw [if_neg (by simp [hnm2])]
        rw [if_neg (by rw [pdAt_def]; omega)]
        rw [next_bucket_walk]
        exact ih n (dist + 1) (by omega) (by omega)

/-! ## The insertion walk: unconditional completion

`HCons` is the stored-hash consistency invariant: every used bucket
holds a pointer and its truncated hash code is the hash of that
pointer's pointee.  Insertion preserves it because displaced residents
travel together with their stored hash codes. -/

def HCons (val H : Nat → Nat) (bs : List Bucket) : Prop :=
  ∀ q, q < bs.length → (bucketAt bs q).used = true →
    ∃ p2, (bucketAt bs q).ptr = some p2 ∧
      (bucketAt bs q).hash_code = H (val p2)

/-- insertLoop_completes: with a claimable bucket `m` steps ahead of
the current position (and enough fuel to reach it), the insertion loop
terminates, claims at most one fresh slot (so the size counter moves by
the same amount as the used-bucket count, by at most one), preserves
stored-hash consistency, and modifies no bucket outside the `m + 1`
positions it may visit. -/
theorem insertLoop_completes (alive : Nat → Bool) (val H : Nat → Nat) :
    ∀ fuel bs size hash p pos dist m,
      m < fuel → m < bs.length → pos < bs.length →
      freeB alive (bucketAt bs ((pos + m) % bs.length)) = true →
      HCons val H bs → hash = H (val p) →
      ∃ bs2 size2,
        insertLoop alive val fuel bs size hash p pos dist = some (bs2, size2) ∧
        bs2.length = bs.length ∧
        size ≤ size2 ∧ size2 ≤ size + 1 ∧
        size2 + usedCount bs = size + usedCount bs2 ∧
        HCons val H bs2 ∧
        (∀ q, (∀ i, i ≤ m → q ≠ (pos + i) % bs.length) →
          bucketAt bs2 q = bucketAt bs q) := by
  intro fuel
  induction fuel with
  | zero => intro bs size hash p pos dist m hm; omega
  | succ n ih =>
    intro bs size hash p pos dist m hmf hmlen hpos hfree hhc hch
    have hlen : 0 < bs.length := by omega
    cases hu : (bucketAt bs pos).used with
    | false =>
      refine ⟨bs.set pos ⟨some p, true, hash⟩, size + 1, ?_, ?_, ?_, ?_, ?_, ?_, ?_⟩
      · rw [insertLoop, if_pos (by simp [hu])]
      · exact List.length_set _ _ _
      · omega
      · omega
      · have := usedCount_set bs pos hpos ⟨some p, true, hash⟩
        rw [hu] at this
        simp at this
        omega
      · intro q hq hu2
        rw [List.length_set] at hq
        by_cases hqp : q = pos
        · subst hqp
          rw [bucketAt_set_self bs q _ hpos]
          exact ⟨p, rfl, hch⟩
        · rw [bucketAt_set_ne bs pos q _ (fun h => hqp h.symm)] at hu2 ⊢
          exact hhc q hq hu2
      · intro q hq
        exact bucketAt_set_ne bs pos q _ (by
          have := hq 0 (by omega)
          rw [Nat.add_zero, Nat.mod_eq_of_lt hpos] at this
          exact fun h => this h.symm)
    | true =>
      cases hl : lockB alive (bucketAt bs pos) with
      | none =>
        refine ⟨bs.set pos ⟨some p, true, hash⟩, size, ?_, ?_, ?_, ?_, ?_, ?_, ?_⟩
        · rw [insertLoop, if_neg (by simp [hu]), hl]
        · exact List.length_set _ _ _
        · omega
        · omega
        · have := usedCount_set bs pos hpos ⟨some p, true, hash⟩
          rw [hu] at this
          simp at this
          omega
        · intro q hq hu2
          rw [List.length_set] at hq
          by_cases hqp : q = pos
          · subst hqp
            rw [bucketAt_set_self bs q _ hpos]
            exact ⟨p, rfl, hch⟩
          · rw [bucketAt_set_ne bs pos q _ (fun h => hqp h.symm)] at hu2 ⊢
            exact hhc q hq hu2
        · intro q hq
          exact bucketAt_set_ne bs pos q _ (by
            have := hq 0 (by omega)
            rw [Nat.add_zero, Nat.mod_eq_of_lt hpos] at this
            exact fun h => this h.symm)
      | some l =>
        cases hm : (hash == (bucketAt bs pos).hash_code && (val l == val p)) with
        | true =>
          have hhasheq : (bucketAt bs pos).hash_code = hash :=
            (eq_of_beq ((Bool.and_eq_true _ _).mp hm).1).symm
          refine ⟨bs.set pos ⟨some p, true, hash⟩, size, ?_, ?_, ?_, ?_, ?_, ?_, ?_⟩
          · rw [insertLoop, if_neg (by simp [hu]), hl]
            simp only []
            rw [if_pos hm, hhasheq]
          · exact List.length_set _ _ _
          · omega
          · omega
          · have := usedCount_set bs pos hpos ⟨some p, true, hash⟩
            rw [hu] at this
            simp at this
            omega
          · intro q hq hu2
            rw [List.length_set] at hq
            by_cases hqp : q = pos
            · subst hqp
              rw [bucketAt_set_self bs q _ hpos]
              exact ⟨p, rfl, hch⟩
            · rw [bucketAt_set_ne bs pos q _ (fun h => hqp h.symm)] at hu2 ⊢
              exact hhc q hq hu2
          · intro q hq
            exact bucketAt_set_ne bs pos q _ (by
              have := hq 0 (by omega)
              rw [Nat.add_zero, Nat.mod_eq_of_lt hpos] at this
              exact fun h => this h.symm)
        | false =>
          have hm1 : 1 ≤ m := by
            rcases Nat.eq_zero_or_pos m with h0 | h1
            · exfalso
              subst h0
              rw [Nat.add_zero, Nat.mod_eq_of_lt hpos] at hfree
              unfold freeB at hfree
              rw [hu, hl] at hfree
              simp at hfree
            · exact h1
          have hne : (pos + m) % bs.length ≠ pos := by
            intro h
            have h2 : (pos + m) % bs.length = (pos + 0) % bs.length := by
              rw [h, Nat.add_zero, Nat.mod_eq_of_lt hpos]
            exact absurd (walk_inj bs.length pos m 0 hpos hmlen hlen h2) (by omega)
          have hwalk1 : ∀ i : Nat, (next_bucket_ bs.length pos + i) % bs.length =
              (pos + (1 + i)) % bs.length := by
            intro i
            unfold next_bucket_
            exact walk_add bs.length pos 1 i
          have hstep : (next_bucket_ bs.length pos + (m - 1)) % bs.length =
              (pos + m) % bs.length := by
            rw [hwalk1]
            congr 1
            omega
          by_cases hsw : probe_distance_ bs.length pos
              (which_bucket_ bs.length (bucketAt bs pos).hash_code) < dist
          · -- Robin Hood displacement: the resident continues forward
            have hch2 : (bucketAt bs pos).hash_code = H (val l) := by
              obtain ⟨p2, hp2, hh2⟩ := hhc pos hpos hu
              obtain ⟨hp3, _⟩ := (lockB_some_iff alive _ l).mp hl
              rw [hp3] at hp2
              cases Option.some_inj.mp hp2
              exact hh2
            obtain ⟨bs2, size2, heq, hlen2, hs1, hs2, hdelta, hhc2, hloc⟩ :=
              ih (bs.set pos ⟨some p, true, hash⟩) size
                ((bucketAt bs pos).hash_code) l (next_bucket_ bs.length pos)
                (probe_distance_ bs.length pos
                  (which_bucket_ bs.length (bucketAt bs pos).hash_code) + 1)
                (m - 1)
                (by omega) (by rw [List.length_set]; omega)
                (by rw [List.length_set]; exact Nat.mod_lt _ hlen)
                (by
                  rw [List.length_set, hstep,
                    bucketAt_set_ne bs pos _ _ (fun h => hne h.symm)]
                  exact hfree)
                (by
                  intro q hq hu2
                  rw [List.length_set] at hq
                  by_cases hqp : q = pos
                  · subst hqp
                    rw [bucketAt_set_self bs q _ hpos]
                    exact ⟨p, rfl, hch⟩
                  · rw [bucketAt_set_ne bs pos q _ (fun h => hqp h.symm)] at hu2 ⊢
                    exact hhc q hq hu2)
                hch2
            refine ⟨bs2, size2, ?_, ?_, hs1, hs2, ?_, hhc2, ?_⟩
            · rw [insertLoop, if_neg (by simp [hu]), hl]
              simp only []
              rw [if_neg (by simp [hm]), if_pos hsw]
              exact heq
            · rw [hlen2, List.length_set]
            · have := usedCount_set bs pos hpos ⟨some p, true, hash⟩
              rw [hu] at this
              simp at this
              omega
            · intro q hq
              rw [hloc q (by
                intro i hi
                rw [List.length_set, hwalk1]
                exact hq (1 + i) (by omega))]
              exact bucketAt_set_ne bs pos q _ (by
                have := hq 0 (by omega)
                rw [Nat.add_zero, Nat.mod_eq_of_lt hpos] at this
                exact fun h => this h.symm)
          · -- the resident is at least as far from home: step forward
            obtain ⟨bs2, size2, heq, hlen2, hs1, hs2, hdelta, hhc2, hloc⟩ :=
              ih bs size hash p (next_bucket_ bs.length pos) (dist + 1) (m - 1)
                (by omega) (by omega) (Nat.mod_lt _ hlen)
                (by rw [hstep]; exact hfree) hhc hch
            refine ⟨bs2, size2, ?_, hlen2, hs1, hs2, hdelta, hhc2, ?_⟩
            · rw [insertLoop, if_neg (by simp [hu]), hl]
              simp only []
              rw [if_neg (by simp [hm]), if_neg hsw]
              exact heq
            · intro q hq
              exact hloc q (by
                intro i hi
                rw [hwalk1]
                exact hq (1 + i) (by omega))

/-! ## The insertion walk: the first displacement -/

/-- insertLoop_swaps: when every bucket strictly before offset `d` lets
the insertion continue without displacement and the bucket at offset
`d` is live, does not match, and sits strictly closer to its home than
the walker (the Robin Hood condition), the loop places the incoming
pointer at offset `d` and continues with the displaced resident. -/
theorem insertLoop_swaps (alive : Nat → Bool) (val : Nat → Nat)
    (bs : List Bucket) (size hash p home d l : Nat)
    (hpre : ∀ i, i < d →
      (bucketAt bs ((home + i) % bs.length)).used = true ∧
      (lockB alive (bucketAt bs ((home + i) % bs.length))).isSome = true ∧
      matchB alive val bs hash (val p) ((home + i) % bs.length) = false ∧
      i ≤ pdAt bs ((home + i) % bs.length))
    (hused : (bucketAt bs ((home + d) % bs.length)).used = true)
    (hlock : lockB alive (bucketAt bs ((home + d) % bs.length)) = some l)
    (hnm : matchB alive val bs hash (val p) ((home + d) % bs.length) = false)
    (hpd : pdAt bs ((home + d) % bs.length) < d) :
    ∀ k fuel dist, dist + k = d → k < fuel →
      insertLoop alive val fuel bs size hash p ((home + dist) % bs.length) dist =
        insertLoop alive val (fuel - (k + 1))
          (bs.set ((home + d) % bs.length) ⟨some p, true, hash⟩) size
          (bucketAt bs ((home + d) % bs.length)).hash_code l
          (next_bucket_ bs.length ((home + d) % bs.length))
          (pdAt bs ((home + d) % bs.length) + 1) := by
  intro k
  induction k with
  | zero =>
    intro fuel dist hdist hfuel
    match fuel, hfuel with
    | n + 1, _ =>
      have hd : dist = d := by omega
      subst hd
      rw [insertLoop, if_neg (by simp [hused]), hlock]
      unfold matchB at hnm
      rw [hlock] at hnm
      have hnm2 : (hash == (bucketAt bs ((home + dist) % bs.length)).hash_code &&
          (val l == val p)) = false := hnm
      simp only []
      rw [if_neg (by simp [hnm2])]
      rw [if_pos (by rw [pdAt_def]; omega)]
      rw [pdAt_def]
      simp
  | succ m ih =>
    intro fuel dist hdist hfuel
    match fuel, hfuel with
    | n + 1, hfuel =>
      obtain ⟨hu, hlk, hnmi, hpdi⟩ := hpre dist (by omega)
      rw [insertLoop, if_neg (by simp [hu])]
      match hl : lockB alive (bucketAt bs ((home + dist) % bs.length)) with
      | none => rw [hl] at hlk; exact absurd hlk (by simp)
      | some l2 =>
        unfold matchB at hnmi
        rw [hl] at hnmi
        have hnm2 : (hash == (bucketAt bs ((home + dist) % bs.length)).hash_code &&
            (val l2 == val p)) = false := hnmi
        simp only []
        rw [if_neg (by simp [hnm2])]
        rw [if_neg (by rw [pdAt_def]; omega)]
        rw [next_bucket_walk]
        have := ih n (dist + 1) (by omega) (by omega)
        rw [this]
        congr 1
        omega

/-! ## Insert-then-member, core argument

`contB` is the walk-continuation test of `insert_` at offset `i` from
home: the bucket is used, locks, does not match the incoming value, and
its resident is at least as far from its own home as the walker.  The
incoming pointer is always placed at the first offset failing this
test, and the subsequent buckets the loop may touch lie strictly
beyond it, so a lookup launched afterwards retraces the walk and finds
the freshly placed pointer. -/

def contB (alive : Nat → Bool) (val : Nat → Nat) (bs : List Bucket)
    (hash p home i : Nat) : Bool :=
  (bucketAt bs ((home + i) % bs.length)).used &&
  (lockB alive (bucketAt bs ((home + i) % bs.length))).isSome &&
  !matchB alive val bs hash (val p) ((home + i) % bs.length) &&
  decide (i ≤ pdAt bs ((home + i) % bs.length))

theorem contB_true_iff (alive : Nat → Bool) (val : Nat → Nat)
    (bs : List Bucket) (hash p home i : Nat) :
    contB alive val bs hash p home i = true ↔
      (bucketAt bs ((home + i) % bs.length)).used = true ∧
      (lockB alive (bucketAt bs ((home + i) % bs.length))).isSome = true ∧
      matchB alive val bs hash (val p) ((home + i) % bs.length) = false ∧
      i ≤ pdAt bs ((home + i) % bs.length) := by
  unfold contB
  simp [Bool.and_eq_true, and_assoc]

/-- insert_member_core: on a table of positive capacity in which a
claimable (unused or expired) slot exists within the probe cycle, and
whose stored hash codes are consistent, inserting a live pointer `p`
succeeds and a subsequent `member` on its value is true; moreover the
freshly written bucket is an exact image of `p`, the capacity is
unchanged, the size counter moves together with the used-bucket count
by at most one, and hash consistency is preserved. -/
theorem insert_member_core (alive : Nat → Bool) (val F : Nat → Nat)
    (T : Table) (p mf : Nat)
    (hcap : 0 < T.cap)
    (hmf : mf < T.cap)
    (hfree : freeB alive (bucketAt T.buckets
      ((which_bucket_ T.cap (mhash F (val p)) + mf) % T.cap)) = true)
    (hhc : HCons val (fun v => mhash F v) T.buckets)
    (halive : alive p = true) :
    ∃ T1, insert_ alive val T (mhash F (val p)) p = some T1 ∧
      T1.cap = T.cap ∧
      member alive val F T1 (val p) = true ∧
      (∃ e, e < T.cap ∧ bucketAt T1.buckets e =
        ⟨some p, true, mhash F (val p)⟩) ∧
      T.size_ ≤ T1.size_ ∧ T1.size_ ≤ T.size_ + 1 ∧
      T1.size_ + usedCount T.buckets = T.size_ + usedCount T1.buckets ∧
      HCons val (fun v => mhash F v) T1.buckets := by
  classical
  set hash := mhash F (val p) with hhash
  set home := which_bucket_ T.cap hash with hhome
  set bs := T.buckets with hbs
  have hlen : T.cap = bs.length := rfl
  have hhlt : home < bs.length := by
    rw [hhome, ← hlen]
    exact Nat.mod_lt _ hcap
  have hstopmf : contB alive val bs hash p home mf = false := by
    have hfree2 := hfree
    unfold freeB at hfree2
    rcases (Bool.or_eq_true _ _).mp hfree2 with h | h
    · unfold contB
      rw [← hlen]
      rw [show (bucketAt bs ((home + mf) % T.cap)).used = false by
        simpa using h]
      simp
    · unfold contB
      rw [← hlen]
      rw [show (lockB alive (bucketAt bs ((home + mf) % T.cap))).isSome = false by
        simpa using h]
      simp
  have hPex : ∃ i, contB alive val bs hash p home i = false := ⟨mf, hstopmf⟩
  set j := Nat.find hPex with hj
  have hjstop : contB alive val bs hash p home j = false := Nat.find_spec hPex
  have hjmin : ∀ i, i < j → contB alive val bs hash p home i = true := by
    intro i hi
    have := Nat.find_min hPex hi
    simpa using this
  have hjle : j ≤ mf := Nat.find_min' hPex hstopmf
  have hjlt : j < bs.length := by omega
  have hpre : ∀ i, i < j →
      (bucketAt bs ((home + i) % bs.length)).used = true ∧
      (lockB alive (bucketAt bs ((home + i) % bs.length))).isSome = true ∧
      matchB alive val bs hash (val p) ((home + i) % bs.length) = false ∧
      i ≤ pdAt bs ((home + i) % bs.length) := by
    intro i hi
    exact (contB_true_iff alive val bs hash p home i).mp (hjmin i hi)
  -- facts shared by both stop kinds, about the final bucket list
  have hmain : ∀ bs2 : List Bucket, bs2.length = bs.length →
      (∀ i, i < j → bucketAt bs2 ((home + i) % bs.length) =
        bucketAt bs ((home + i) % bs.length)) →
      bucketAt bs2 ((home + j) % bs.length) = ⟨some p, true, hash⟩ →
      ∀ size2 : Nat,
      member alive val F ⟨bs2, size2⟩ (val p) = true ∧
      (∃ e, e < T.cap ∧ bucketAt bs2 e = ⟨some p, true, hash⟩) := by
    intro bs2 hblen hbpre hbj size2
    constructor
    · have hfind := lookupLoop_finds alive val bs2 hash (val p) home j
        (by
          intro i hi
          rw [hblen, hbpre i hi]
          refine ⟨(hpre i hi).1, ?_, ?_⟩
          · have h2 : pdAt bs2 ((home + i) % bs.length) =
                pdAt bs ((home + i) % bs.length) := by
              unfold pdAt
              rw [hblen, hbpre i hi]
            rw [h2]
            exact (hpre i hi).2.2.2
          · have h3 : matchB alive val bs2 hash (val p) ((home + i) % bs.length) =
                matchB alive val bs hash (val p) ((home + i) % bs.length) := by
              unfold matchB
              rw [hbpre i hi]
            rw [h3]
            exact (hpre i hi).2.2.1)
        (by rw [hblen, hbj])
        (by
          rw [hblen]
          have h2 : pdAt bs2 ((home + j) % bs.length) = j := by
            unfold pdAt
            rw [hblen, hbj]
            show probe_distance_ bs.length ((home + j) % bs.length)
              (which_bucket_ bs.length hash) = j
            have : which_bucket_ bs.length hash = home := by
              rw [hhome, hlen]
            rw [this]
            exact probe_distance_mod bs.length home j hhlt hjlt
          rw [h2])
        (by
          rw [hblen]
          unfold matchB
          rw [hbj]
          show (hash == hash &&
            match lockB alive ⟨some p, true, hash⟩ with
            | some locked => val locked == val p
            | none => false) = true
          rw [show lockB alive ⟨some p, true, hash⟩ = some p by
            unfold lockB
            simp [halive]]
          simp)
        j (bs.length + 1) 0 (by omega) (by omega)
      unfold member lookup_
      show (lookupLoop alive val bs2 hash (val p)
        ((⟨bs2, size2⟩ : Table).cap + 1)
        (which_bucket_ (⟨bs2, size2⟩ : Table).cap hash) 0).isSome = true
      have hcap2 : (⟨bs2, size2⟩ : Table).cap = bs.length := hblen
      rw [hcap2]
      have hwb : which_bucket_ bs.length hash = (home + 0) % bs2.length := by
        rw [hblen, Nat.add_zero, Nat.mod_eq_of_lt hhlt, hhome, hlen]
      rw [hwb]
      rw [show bs2.length = bs.length from hblen] at hfind ⊢
      rw [hfind]
      rfl
    · exact ⟨(home + j) % bs.length, by rw [hlen]; exact Nat.mod_lt _ (by omega), hbj⟩
  -- split on the reason the walk stops at offset j
  by_cases hu : (bucketAt bs ((home + j) % bs.length)).used = true
  · cases hlk : lockB alive (bucketAt bs ((home + j) % bs.length)) with
    | none =>
      -- expired resident: reclaimed in place, size unchanged
      have hst := insertLoop_stops alive val bs T.size_ hash p home j hpre
        (Or.inr (Or.inl ⟨hu, hlk⟩)) j T.cap 0 (by omega) (by omega)
      rw [Nat.add_zero, Nat.mod_eq_of_lt hhlt] at hst
      set bs1 := bs.set ((home + j) % bs.length) ⟨some p, true, hash⟩ with hbs1
      have hblen : bs1.length = bs.length := List.length_set _ _ _
      have hbj : bucketAt bs1 ((home + j) % bs.length) = ⟨some p, true, hash⟩ :=
        bucketAt_set_self bs _ _ (Nat.mod_lt _ (by omega))
      have hbpre : ∀ i, i < j → bucketAt bs1 ((home + i) % bs.length) =
          bucketAt bs ((home + i) % bs.length) := by
        intro i hi
        exact bucketAt_set_ne bs _ _ _ (by
          intro h
          exact absurd (walk_inj bs.length home j i hhlt hjlt (by omega) h)
            (by omega))
      refine ⟨⟨bs1, T.size_⟩, ?_, hblen, (hmain bs1 hblen hbpre hbj T.size_).1,
        (hmain bs1 hblen hbpre hbj T.size_).2, le_refl _, Nat.le_succ _, ?_, ?_⟩
      · unfold insert_
        rw [← hbs, ← hhome, hst, hu]
        simp
      · have hosc := usedCount_set bs ((home + j) % bs.length)
          (Nat.mod_lt _ (by omega)) ⟨some p, true, hash⟩
        rw [hu] at hosc
        simp at hosc
        have h2 : usedCount bs1 = usedCount bs := by rw [hbs1]; omega
        show T.size_ + usedCount bs = T.size_ + usedCount bs1
        omega
      · intro q hq hu2
        rw [hblen] at hq
        by_cases hqp : q = (home + j) % bs.length
        · subst hqp
          rw [hbj]
          exact ⟨p, rfl, rfl⟩
        · rw [bucketAt_set_ne bs _ _ _ (fun h => hqp h.symm)] at hu2 ⊢
          exact hhc q hq hu2
    | some l =>
      by_cases hmm : matchB alive val bs hash (val p) ((home + j) % bs.length) = true
      · -- equal key: replaced in place, size unchanged
        have hst := insertLoop_stops alive val bs T.size_ hash p home j hpre
          (Or.inr (Or.inr ⟨hu, hmm⟩)) j T.cap 0 (by omega) (by omega)
        rw [Nat.add_zero, Nat.mod_eq_of_lt hhlt] at hst
        set bs1 := bs.set ((home + j) % bs.length) ⟨some p, true, hash⟩ with hbs1
        have hblen : bs1.length = bs.length := List.length_set _ _ _
        have hbj : bucketAt bs1 ((home + j) % bs.length) = ⟨some p, true, hash⟩ :=
          bucketAt_set_self bs _ _ (Nat.mod_lt _ (by omega))
        have hbpre : ∀ i, i < j → bucketAt bs1 ((home + i) % bs.length) =
            bucketAt bs ((home + i) % bs.length) := by
          intro i hi
          exact bucketAt_set_ne bs _ _ _ (by
            intro h
            exact absurd (walk_inj bs.length home j i hhlt hjlt (by omega) h)
              (by omega))
        refine ⟨⟨bs1, T.size_⟩, ?_, hblen, (hmain bs1 hblen hbpre hbj T.size_).1,
          (hmain bs1 hblen hbpre hbj T.size_).2, le_refl _, Nat.le_succ _, ?_, ?_⟩
        · unfold insert_
          rw [← hbs, ← hhome, hst, hu]
          simp
        · have hosc := usedCount_set bs ((home + j) % bs.length)
            (Nat.mod_lt _ (by omega)) ⟨some p, true, hash⟩
          rw [hu] at hosc
          simp at hosc
          have h2 : usedCount bs1 = usedCount bs := by rw [hbs1]; omega
          show T.size_ + usedCount bs = T.size_ + usedCount bs1
          omega
        · intro q hq hu2
          rw [hblen] at hq
          by_cases hqp : q = (home + j) % bs.length
          · subst hqp
            rw [hbj]
            exact ⟨p, rfl, rfl⟩
          · rw [bucketAt_set_ne bs _ _ _ (fun h => hqp h.symm)] at hu2 ⊢
            exact hhc q hq hu2
      · -- Robin Hood displacement at offset j, then the loop completes
        have hpd : pdAt bs ((home + j) % bs.length) < j := by
          have := hjstop
          unfold contB at this
          rw [hu, hlk] at this
          simp only [Bool.not_eq_true] at hmm
          rw [hmm] at this
          simp at this
          omega
        have hmflt : j < mf := by
          rcases Nat.lt_or_ge j mf with h | h
          · exact h
          · exfalso
            have hjmf : j = mf := by omega
            have hfree2 := hfree
            rw [hlen] at hfree2
            unfold freeB at hfree2
            rw [← hjmf] at hfree2
            rcases (Bool.or_eq_true _ _).mp hfree2 with h2 | h2
            · rw [show (bucketAt bs ((home + j) % bs.length)).used = false by
                simpa using h2] at hu
              exact absurd hu (by simp)
            · rw [hlk] at h2
              exact absurd h2 (by simp)
        have hsw := insertLoop_swaps alive val bs T.size_ hash p home j l hpre
          hu hlk (by simpa using hmm) hpd j T.cap 0 (by omega) (by omega)
        rw [Nat.add_zero, Nat.mod_eq_of_lt hhlt] at hsw
        set qj := (home + j) % bs.length with hqj
        have hqjlt : qj < bs.length := Nat.mod_lt _ (by omega)
        set bsq := bs.set qj ⟨some p, true, hash⟩ with hbsq
        have hblenq : bsq.length = bs.length := List.length_set _ _ _
        have hch2 : (bucketAt bs qj).hash_code = mhash F (val l) := by
          obtain ⟨p2, hp2, hh2⟩ := hhc qj hqjlt hu
          obtain ⟨hp3, _⟩ := (lockB_some_iff alive _ l).mp hlk
          rw [hp3] at hp2
          cases Option.some_inj.mp hp2
          exact hh2
        have hcomp := insertLoop_completes alive val (fun v => mhash F v)
          (T.cap - (j + 1)) bsq T.size_ ((bucketAt bs qj).hash_code) l
          (next_bucket_ bs.length qj)
          (pdAt bs qj + 1) (mf - (j + 1))
          (by omega) (by rw [hblenq]; omega)
          (by rw [hblenq]; exact Nat.mod_lt _ (by omega))
          (by
            rw [hblenq]
            have hnq : next_bucket_ bs.length qj = (home + (j + 1)) % bs.length := by
              rw [hqj]
              exact next_bucket_walk bs.length home j
            rw [hnq, walk_add]
            have : j + 1 + (mf - (j + 1)) = mf := by omega
            rw [this]
            have hne : (home + mf) % bs.length ≠ qj := by
              rw [hqj]
              intro h
              exact absurd (walk_inj bs.length home mf j hhlt (by omega) hjlt h)
                (by omega)
            rw [bucketAt_set_ne bs _ _ _ (fun h => hne h.symm)]
            rw [← hlen]
            exact hfree)
          (by
            intro q hq hu2
            rw [hblenq] at hq
            by_cases hqp : q = qj
            · subst hqp
              rw [bucketAt_set_self bs _ _ hqjlt]
              exact ⟨p, rfl, rfl⟩
            · rw [bucketAt_set_ne bs _ _ _ (fun h => hqp h.symm)] at hu2 ⊢
              exact hhc q hq hu2)
          hch2
        obtain ⟨bs2, size2, heq2, hlen2, hs1, hs2, hdelta, hhc2, hloc⟩ := hcomp
        have hblen2 : bs2.length = bs.length := by rw [hlen2, hblenq]
        have hbj2 : bucketAt bs2 qj = ⟨some p, true, hash⟩ := by
          rw [hloc qj (by
            intro i hi
            rw [hblenq]
            have hnq : next_bucket_ bs.length qj = (home + (j + 1)) % bs.length := by
              rw [hqj]
              exact next_bucket_walk bs.length home j
            rw [hnq, walk_add, hqj]
            intro h
            exact absurd (walk_inj bs.length home j (j + 1 + i) hhlt hjlt
              (by omega) h) (by omega))]
          exact bucketAt_set_self bs _ _ hqjlt
        have hbpre2 : ∀ i, i < j → bucketAt bs2 ((home + i) % bs.length) =
            bucketAt bs ((home + i) % bs.length) := by
          intro i hi
          rw [hloc _ (by
            intro i2 hi2
            rw [hblenq]
            have hnq : next_bucket_ bs.length qj = (home + (j + 1)) % bs.length := by
              rw [hqj]
              exact next_bucket_walk bs.length home j
            rw [hnq, walk_add]
            intro h
            exact absurd (walk_inj bs.length home i (j + 1 + i2) hhlt (by omega)
              (by omega) h) (by omega))]
          exact bucketAt_set_ne bs _ _ _ (by
            intro h
            rw [hqj] at h
            exact absurd (walk_inj bs.length home j i hhlt hjlt (by omega) h)
              (by omega))
        refine ⟨⟨bs2, size2⟩, ?_, hblen2, (hmain bs2 hblen2 hbpre2 hbj2 size2).1,
          (hmain bs2 hblen2 hbpre2 hbj2 size2).2, ?_, ?_, ?_, ?_⟩
        · unfold insert_
          rw [← hbs, ← hhome, hsw, heq2]
        · exact hs1
        · exact hs2
        · have hosc := usedCount_set bs qj hqjlt ⟨some p, true, hash⟩
          rw [hu] at hosc
          simp at hosc
          have h2 : usedCount bsq = usedCount bs := by rw [hbsq]; omega
          show size2 + usedCount bs = T.size_ + usedCount bs2
          omega
        · exact hhc2
  · -- unused bucket at the stopping offset: claimed, size incremented
    have hu2 : (bucketAt bs ((home + j) % bs.length)).used = false := by
      simpa using hu
    have hst := insertLoop_stops alive val bs T.size_ hash p home j hpre
      (Or.inl hu2) j T.cap 0 (by omega) (by omega)
    rw [Nat.add_zero, Nat.mod_eq_of_lt hhlt] at hst
    set bs1 := bs.set ((home + j) % bs.length) ⟨some p, true, hash⟩ with hbs1
    have hblen : bs1.length = bs.length := List.length_set _ _ _
    have hbj : bucketAt bs1 ((home + j) % bs.length) = ⟨some p, true, hash⟩ :=
      bucketAt_set_self bs _ _ (Nat.mod_lt _ (by omega))
    have hbpre : ∀ i, i < j → bucketAt bs1 ((home + i) % bs.length) =
        bucketAt bs ((home + i) % bs.length) := by
      intro i hi
      exact bucketAt_set_ne bs _ _ _ (by
        intro h
        exact absurd (walk_inj bs.length home j i hhlt hjlt (by omega) h)
          (by omega))
    refine ⟨⟨bs1, T.size_ + 1⟩, ?_, hblen,
      (hmain bs1 hblen hbpre hbj (T.size_ + 1)).1,
      (hmain bs1 hblen hbpre hbj (T.size_ + 1)).2, Nat.le_succ _, le_refl _,
      ?_, ?_⟩
    · unfold insert_
      rw [← hbs, ← hhome, hst, hu2]
      simp
    · have hosc := usedCount_set bs ((home + j) % bs.length)
        (Nat.mod_lt _ (by omega)) ⟨some p, true, hash⟩
      rw [hu2] at hosc
      simp at hosc
      have h2 : usedCount bs1 = usedCount bs + 1 := by rw [hbs1]; omega
      show T.size_ + 1 + usedCount bs = T.size_ + usedCount bs1
      omega
    · intro q hq hucond
      rw [hblen] at hq
      by_cases hqp : q = (home + j) % bs.length
      · subst hqp
        rw [hbj]
        exact ⟨p, rfl, rfl⟩
      · rw [bucketAt_set_ne bs _ _ _ (fun h => hqp h.symm)] at hucond ⊢
        exact hhc q hq hucond

/-! ## The rebuild invariant

After a growth event the table is rebuilt from scratch by re-inserting
every still-live entry.  During that rebuild every resident is live, so
the classic Robin Hood well-formedness holds: `chain` says that walking
from any resident's home slot to its actual slot crosses only used
buckets whose own probe distance is at least the walk offset; `nodup`
says no two used buckets hold equal values. -/

/-- bval is the pointee value of the bucket at `q` (0 for an empty weak
pointer; every used bucket of a well-formed table holds a pointer). -/
def bval (val : Nat → Nat) (bs : List Bucket) (q : Nat) : Nat :=
  match (bucketAt bs q).ptr with
  | some p => val p
  | none => 0

structure GoodT (alive : Nat → Bool) (val H : Nat → Nat)
    (bs : List Bucket) : Prop where
  allLive : ∀ q, q < bs.length → (bucketAt bs q).used = true →
    ∃ p, (bucketAt bs q).ptr = some p ∧ alive p = true
  hashCons : HCons val H bs
  chain : ∀ q, q < bs.length → (bucketAt bs q).used = true →
    ∀ i, i < pdAt bs q →
      (bucketAt bs ((which_bucket_ bs.length (bucketAt bs q).hash_code + i) %
        bs.length)).used = true ∧
      i ≤ pdAt bs ((which_bucket_ bs.length (bucketAt bs q).hash_code + i) %
        bs.length)
  nodup : ∀ q r, q < bs.length → r < bs.length → (bucketAt bs q).used = true →
    (bucketAt bs r).used = true → bval val bs q = bval val bs r → q = r

/-- memVal says some used bucket holds the value `k`. -/
def memVal (val : Nat → Nat) (bs : List Bucket) (k : Nat) : Prop :=
  ∃ q, q < bs.length ∧ (bucketAt bs q).used = true ∧ bval val bs q = k

theorem bval_set_ne (val : Nat → Nat) (bs : List Bucket) (e q : Nat)
    (b2 : Bucket) (h : e ≠ q) : bval val (bs.set e b2) q = bval val bs q := by
  unfold bval
  rw [bucketAt_set_ne bs e q b2 h]

theorem bval_set_self (val : Nat → Nat) (bs : List Bucket) (e p hash : Nat)
    (he : e < bs.length) :
    bval val (bs.set e ⟨some p, true, hash⟩) e = val p := by
  unfold bval
  rw [bucketAt_set_self bs e _ he]

theorem bval_of_lock (alive : Nat → Bool) (val : Nat → Nat) (bs : List Bucket)
    (q l : Nat) (h : lockB alive (bucketAt bs q) = some l) :
    bval val bs q = val l := by
  obtain ⟨hp, _⟩ := (lockB_some_iff alive _ l).mp h
  unfold bval
  rw [hp]

/-- insertLoop_replaces: inserting a value already present in a
well-formed all-live table replaces the pointer of its unique resident
bucket in place, leaving everything else (including the size counter)
unchanged. -/
theorem insertLoop_replaces (alive : Nat → Bool) (val H : Nat → Nat)
    (bs : List Bucket) (size hash p e fuel : Nat)
    (hG : GoodT alive val H bs)
    (hh : hash = H (val p))
    (he : e < bs.length) (hue : (bucketAt bs e).used = true)
    (hve : bval val bs e = val p)
    (hfuel : pdAt bs e < fuel) :
    insertLoop alive val fuel bs size hash p
      (which_bucket_ bs.length hash) 0 =
      some (bs.set e ⟨some p, true, hash⟩, size) := by
  have hlen : 0 < bs.length := by omega
  obtain ⟨pe, hpe, hale⟩ := hG.allLive e he hue
  have hbve : val pe = val p := by
    unfold bval at hve
    rw [hpe] at hve
    exact hve
  obtain ⟨pe2, hpe2, hhce⟩ := hG.hashCons e he hue
  rw [hpe] at hpe2
  cases Option.some_inj.mp hpe2
  have hstored : (bucketAt bs e).hash_code = hash := by
    rw [hhce, hbve, hh]
  set home := which_bucket_ bs.length hash with hhome
  have hhlt : home < bs.length := Nat.mod_lt _ hlen
  have hhomee : which_bucket_ bs.length (bucketAt bs e).hash_code = home := by
    rw [hstored]
  set d := pdAt bs e with hd
  have hdlt : d < bs.length := by
    rw [hd]
    unfold pdAt
    exact probe_distance_lt _ _ _ he (Nat.mod_lt _ hlen)
  have hed : e = (home + d) % bs.length := by
    rw [hd]
    unfold pdAt
    rw [hhomee]
    exact (probe_distance_decomp bs.length e home he hhlt).symm
  have hlocke : lockB alive (bucketAt bs e) = some pe :=
    (lockB_some_iff alive _ pe).mpr ⟨hpe, hale⟩
  have hst := insertLoop_stops alive val bs size hash p home d
    (by
      intro i hi
      have hch := hG.chain e he hue i (by omega)
      rw [hhomee] at hch
      obtain ⟨hu2, hpd2⟩ := hch
      obtain ⟨pw, hpw, halw⟩ := hG.allLive ((home + i) % bs.length)
        (Nat.mod_lt _ hlen) hu2
      have hlw : lockB alive (bucketAt bs ((home + i) % bs.length)) = some pw :=
        (lockB_some_iff alive _ pw).mpr ⟨hpw, halw⟩
      refine ⟨hu2, by rw [hlw]; rfl, ?_, hpd2⟩
      unfold matchB
      rw [hlw]
      by_cases hvw : val pw = val p
      · exfalso
        have : (home + i) % bs.length = e := by
          apply hG.nodup _ _ (Nat.mod_lt _ hlen) he hu2 hue
          rw [hve]
          unfold bval
          rw [hpw]
          exact hvw
        rw [hed] at this
        exact absurd (walk_inj bs.length home i d hhlt (by omega) hdlt this)
          (by omega)
      · simp [hvw]
    )
    (by
      right; right
      rw [← hed]
      refine ⟨hue, ?_⟩
      unfold matchB
      rw [hlocke, hstored]
      simp [hbve])
    d fuel 0 (by omega) (by omega)
  rw [Nat.add_zero, Nat.mod_eq_of_lt hhlt, ← hed] at hst
  rw [hst, hue]
  simp

/-- GoodT_replace: replacing the pointer of a resident bucket with a
live pointer to an equal value (and the same stored hash) keeps the
rebuild invariant, the used-bucket count, and the set of stored
values. -/
theorem GoodT_replace (alive : Nat → Bool) (val H : Nat → Nat)
    (bs : List Bucket) (e p hash : Nat)
    (hG : GoodT alive val H bs)
    (he : e < bs.length) (hue : (bucketAt bs e).used = true)
    (hal : alive p = true) (hh : hash = H (val p))
    (hve : bval val bs e = val p)
    (hstored : (bucketAt bs e).hash_code = hash) :
    GoodT alive val H (bs.set e ⟨some p, true, hash⟩) ∧
    usedCount (bs.set e ⟨some p, true, hash⟩) = usedCount bs ∧
    (∀ k, memVal val (bs.set e ⟨some p, true, hash⟩) k ↔ memVal val bs k) := by
  set bs2 := bs.set e ⟨some p, true, hash⟩ with hbs2
  have hlen2 : bs2.length = bs.length := List.length_set _ _ _
  have hused : ∀ q, (bucketAt bs2 q).used = (bucketAt bs q).used := by
    intro q
    by_cases hq : e = q
    · subst hq
      rw [hbs2, bucketAt_set_self bs e _ he, hue]
    · rw [hbs2, bucketAt_set_ne bs e q _ hq]
  have hhashc : ∀ q, (bucketAt bs2 q).hash_code = (bucketAt bs q).hash_code := by
    intro q
    by_cases hq : e = q
    · subst hq
      rw [hbs2, bucketAt_set_self bs e _ he, hstored]
    · rw [hbs2, bucketAt_set_ne bs e q _ hq]
  have hbv : ∀ q, bval val bs2 q = bval val bs q := by
    intro q
    by_cases hq : e = q
    · subst hq
      rw [hbs2, bval_set_self val bs e p hash he, hve]
    · rw [hbs2, bval_set_ne val bs e q _ hq]
  have hpd : ∀ q, pdAt bs2 q = pdAt bs q := by
    intro q
    unfold pdAt
    rw [hlen2, hhashc q]
  refine ⟨⟨?_, ?_, ?_, ?_⟩, ?_, ?_⟩
  · intro q hq hu
    rw [hlen2] at hq
    rw [hused q] at hu
    by_cases hqe : e = q
    · subst hqe
      exact ⟨p, by rw [hbs2, bucketAt_set_self bs e _ he], hal⟩
    · rw [hbs2, bucketAt_set_ne bs e q _ hqe]
      exact hG.allLive q hq hu
  · intro q hq hu
    rw [hlen2] at hq
    rw [hused q] at hu
    by_cases hqe : e = q
    · subst hqe
      rw [hbs2, bucketAt_set_self bs e _ he]
      exact ⟨p, rfl, hh⟩
    · rw [hbs2, bucketAt_set_ne bs e q _ hqe]
      exact hG.hashCons q hq hu
  · intro q hq hu i hi
    rw [hlen2] at hq
    rw [hused q] at hu
    rw [hpd q] at hi
    rw [hlen2, hhashc q, hused _, hpd _]
    exact hG.chain q hq hu i hi
  · intro q r hq hr huq hur hv
    rw [hlen2] at hq hr
    rw [hused q] at huq
    rw [hused r] at hur
    rw [hbv q, hbv r] at hv
    exact hG.nodup q r hq hr huq hur hv
  · have hosc := usedCount_set bs e he ⟨some p, true, hash⟩
    rw [hue] at hosc
    simp at hosc
    rw [← hbs2] at hosc
    omega
  · intro k
    unfold memVal
    constructor
    · rintro ⟨q, hq, hu, hv⟩
      rw [hlen2] at hq
      rw [hused q] at hu
      rw [hbv q] at hv
      exact ⟨q, hq, hu, hv⟩
    · rintro ⟨q, hq, hu, hv⟩
      exact ⟨q, by omega, by rw [hused q]; exact hu, by rw [hbv q]; exact hv⟩

theorem walk_ne (cap b s t : Nat) (hb : b < cap) (hs : s < cap) (ht : t < cap)
    (h : s ≠ t) : (b + s) % cap ≠ (b + t) % cap :=
  fun h2 => h (walk_inj cap b s t hb hs ht h2)

/-- GoodT_place: writing a live pointer to an absent value at walk
offset `dist` keeps the rebuild invariant, provided the walk so far
crossed only used buckets at least `i` deep, and the overwritten bucket
(if it was used) was at most `dist` deep, so that chains crossing it
only get deeper. -/
theorem GoodT_place (alive : Nat → Bool) (val H : Nat → Nat)
    (bs : List Bucket) (p hash home dist : Nat)
    (hG : GoodT alive val H bs)
    (hal : alive p = true) (hh : hash = H (val p))
    (hhome : home = which_bucket_ bs.length hash)
    (hhlt : home < bs.length) (hdlt : dist < bs.length)
    (habs : ∀ q, q < bs.length → (bucketAt bs q).used = true →
      bval val bs q ≠ val p)
    (hwalk : ∀ i, i < dist →
      (bucketAt bs ((home + i) % bs.length)).used = true ∧
      i ≤ pdAt bs ((home + i) % bs.length))
    (hposcond : (bucketAt bs ((home + dist) % bs.length)).used = true →
      pdAt bs ((home + dist) % bs.length) ≤ dist) :
    GoodT alive val H
      (bs.set ((home + dist) % bs.length) ⟨some p, true, hash⟩) := by
  have hlen : 0 < bs.length := by omega
  set pos := (home + dist) % bs.length with hpos
  have hposlt : pos < bs.length := Nat.mod_lt _ hlen
  set bs2 := bs.set pos ⟨some p, true, hash⟩ with hbs2
  have hlen2 : bs2.length = bs.length := List.length_set _ _ _
  have hbpos : bucketAt bs2 pos = ⟨some p, true, hash⟩ :=
    bucketAt_set_self bs pos _ hposlt
  have hpdpos : pdAt bs2 pos = dist := by
    unfold pdAt
    rw [hlen2, hbpos]
    show probe_distance_ bs.length pos (which_bucket_ bs.length hash) = dist
    rw [← hhome, hpos]
    exact probe_distance_mod bs.length home dist hhlt hdlt
  refine ⟨?_, ?_, ?_, ?_⟩
  · intro q hq hu
    rw [hlen2] at hq
    by_cases hqe : q = pos
    · subst hqe
      rw [hbpos]
      exact ⟨p, rfl, hal⟩
    · rw [hbs2, bucketAt_set_ne bs pos q _ (fun h => hqe h.symm)] at hu ⊢
      exact hG.allLive q hq hu
  · intro q hq hu
    rw [hlen2] at hq
    by_cases hqe : q = pos
    · subst hqe
      rw [hbpos]
      exact ⟨p, rfl, hh⟩
    · rw [hbs2, bucketAt_set_ne bs pos q _ (fun h => hqe h.symm)] at hu ⊢
      exact hG.hashCons q hq hu
  · intro q hq hu i hi
    rw [hlen2] at hq ⊢
    by_cases hqe : q = pos
    · subst hqe
      rw [hpdpos] at hi
      rw [hbpos]
      show (bucketAt bs2 ((which_bucket_ bs.length hash + i) % bs.length)).used
          = true ∧
        i ≤ pdAt bs2 ((which_bucket_ bs.length hash + i) % bs.length)
      rw [← hhome]
      have hwne : pos ≠ (home + i) % bs.length := by
        rw [hpos]
        exact walk_ne bs.length home dist i hhlt hdlt (by omega) (by omega)
      rw [hbs2, bucketAt_set_ne bs pos _ _ hwne,
        pdAt_set_ne bs pos _ _ hwne]
      exact hwalk i hi
    · have hbq : bucketAt bs2 q = bucketAt bs q :=
        bucketAt_set_ne bs pos q _ (fun h => hqe h.symm)
      rw [hbq] at hu ⊢
      rw [show pdAt bs2 q = pdAt bs q from
        pdAt_set_ne bs pos q _ (fun h => hqe h.symm)] at hi
      obtain ⟨hu3, hpd3⟩ := hG.chain q hq hu i hi
      by_cases hwe :
          (which_bucket_ bs.length (bucketAt bs q).hash_code + i) % bs.length = pos
      · rw [hwe] at hu3 hpd3 ⊢
        rw [hbpos, hpdpos]
        exact ⟨rfl, le_trans hpd3 (hposcond hu3)⟩
      · rw [hbs2, bucketAt_set_ne bs pos _ _ (fun h => hwe h.symm),
          pdAt_set_ne bs pos _ _ (fun h => hwe h.symm)]
        exact ⟨hu3, hpd3⟩
  · intro q r hq hr huq hur hv
    rw [hlen2] at hq hr
    rw [hbs2] at huq hur hv
    by_cases hqe : q = pos <;> by_cases hre : r = pos
    · rw [hqe, hre]
    · exfalso
      subst hqe
      rw [bval_set_self val bs pos p hash hposlt] at hv
      rw [bucketAt_set_ne bs pos r _ (fun h => hre h.symm)] at hur
      rw [bval_set_ne val bs pos r _ (fun h => hre h.symm)] at hv
      exact habs r hr hur hv.symm
    · exfalso
      subst hre
      rw [bval_set_self val bs pos p hash hposlt] at hv
      rw [bucketAt_set_ne bs pos q _ (fun h => hqe h.symm)] at huq
      rw [bval_set_ne val bs pos q _ (fun h => hqe h.symm)] at hv
      exact habs q hq huq hv
    · rw [bucketAt_set_ne bs pos q _ (fun h => hqe h.symm)] at huq
      rw [bucketAt_set_ne bs pos r _ (fun h => hre h.symm)] at hur
      rw [bval_set_ne val bs pos q _ (fun h => hqe h.symm),
        bval_set_ne val bs pos r _ (fun h => hre h.symm)] at hv
      exact hG.nodup q r hq hr huq hur hv

/-- insertLoop_fresh: inserting a live pointer to an absent value into
a well-formed all-live table with an unused slot on the walk claims
exactly one slot, increments the size counter, preserves the rebuild
invariant, and adds exactly the new value to the stored set. -/
theorem insertLoop_fresh (alive : Nat → Bool) (val H : Nat → Nat) :
    ∀ fuel bs size hash p dist m,
      GoodT alive val H bs →
      alive p = true → hash = H (val p) →
      (∀ q, q < bs.length → (bucketAt bs q).used = true →
        bval val bs q ≠ val p) →
      (∀ i, i < dist →
        (bucketAt bs ((which_bucket_ bs.length hash + i) % bs.length)).used
          = true ∧
        i ≤ pdAt bs ((which_bucket_ bs.length hash + i) % bs.length)) →
      m < fuel → dist + m < bs.length →
      (bucketAt bs
        ((which_bucket_ bs.length hash + (dist + m)) % bs.length)).used
        = false →
      ∃ bs2,
        insertLoop alive val fuel bs size hash p
          ((which_bucket_ bs.length hash + dist) % bs.length) dist =
          some (bs2, size + 1) ∧
        bs2.length = bs.length ∧
        GoodT alive val H bs2 ∧
        usedCount bs2 = usedCount bs + 1 ∧
        (∀ k, memVal val bs2 k ↔ memVal val bs k ∨ k = val p) := by
  intro fuel
  induction fuel with
  | zero => intro bs size hash p dist m _ _ _ _ _ hm; omega
  | succ n ih =>
    intro bs size hash p dist m hG hal hh habs hwalk hmf hdm hfree
    have hlen : 0 < bs.length := by omega
    set home := which_bucket_ bs.length hash with hhome
    have hhlt : home < bs.length := Nat.mod_lt _ hlen
    set pos := (home + dist) % bs.length with hpos
    have hposlt : pos < bs.length := Nat.mod_lt _ hlen
    have hdlt : dist < bs.length := by omega
    cases hu : (bucketAt bs pos).used with
    | false =>
      refine ⟨bs.set pos ⟨some p, true, hash⟩, ?_, List.length_set _ _ _,
        ?_, ?_, ?_⟩
      · rw [insertLoop, if_pos (by simp [hu])]
      · exact GoodT_place alive val H bs p hash home dist hG hal hh hhome
          hhlt hdlt habs hwalk (fun h => absurd h (by simp [hu]))
      · have hosc := usedCount_set bs pos hposlt ⟨some p, true, hash⟩
        rw [hu] at hosc
        simp at hosc
        omega
      · intro k
        unfold memVal
        constructor
        · rintro ⟨q, hq, huq, hvq⟩
          rw [List.length_set] at hq
          by_cases hqe : q = pos
          · subst hqe
            rw [bval_set_self val bs pos p hash hposlt] at hvq
            exact Or.inr hvq.symm
          · rw [bucketAt_set_ne bs pos q _ (fun h => hqe h.symm)] at huq
            rw [bval_set_ne val bs pos q _ (fun h => hqe h.symm)] at hvq
            exact Or.inl ⟨q, hq, huq, hvq⟩
        · rintro (⟨q, hq, huq, hvq⟩ | hk)
          · have hqe : q ≠ pos := by
              intro h
              rw [h, hu] at huq
              exact absurd huq (by simp)
            refine ⟨q, by rw [List.length_set]; exact hq, ?_, ?_⟩
            · rw [bucketAt_set_ne bs pos q _ (fun h => hqe h.symm)]
              exact huq
            · rw [bval_set_ne val bs pos q _ (fun h => hqe h.symm)]
              exact hvq
          · exact ⟨pos, by rw [List.length_set]; exact hposlt,
              by rw [bucketAt_set_self bs pos _ hposlt],
              by rw [bval_set_self val bs pos p hash hposlt]; exact hk.symm⟩
    | true =>
      obtain ⟨l, hpl, hall⟩ := hG.allLive pos hposlt hu
      have hlk : lockB alive (bucketAt bs pos) = some l :=
        (lockB_some_iff alive _ l).mpr ⟨hpl, hall⟩
      have hbvpos : bval val bs pos = val l := bval_of_lock alive val bs pos l hlk
      have hnm : (hash == (bucketAt bs pos).hash_code && (val l == val p))
          = false := by
        by_cases hvl : val l = val p
        · exact absurd (hbvpos.trans hvl) (habs pos hposlt hu)
        · simp [hvl]
      have hm1 : 1 ≤ m := by
        rcases Nat.eq_zero_or_pos m with h0 | h1
        · exfalso
          rw [h0, Nat.add_zero, ← hpos] at hfree
          rw [hfree] at hu
          exact absurd hu (by simp)
        · exact h1
      have hnxt : next_bucket_ bs.length pos = (home + (dist + 1)) % bs.length := by
        rw [hpos]
        exact next_bucket_walk bs.length home dist
      by_cases hsw : pdAt bs pos < dist
      · -- displacement: carry the resident forward
        have hpdlt : pdAt bs pos < bs.length := by
          unfold pdAt
          exact probe_distance_lt _ _ _ hposlt (Nat.mod_lt _ hlen)
        set bsq := bs.set pos ⟨some p, true, hash⟩ with hbsq
        have hlenq : bsq.length = bs.length := List.length_set _ _ _
        have hGq : GoodT alive val H bsq :=
          GoodT_place alive val H bs p hash home dist hG hal hh hhome
            hhlt hdlt habs hwalk (fun _ => by rw [← hpos]; omega)
        obtain ⟨p2, hp2, hh2⟩ := hG.hashCons pos hposlt hu
        rw [hpl] at hp2
        cases Option.some_inj.mp hp2
        -- now hh2 : (bucketAt bs pos).hash_code = H (val l)
        set home2 := which_bucket_ bs.length (bucketAt bs pos).hash_code
          with hhome2
        have hhlt2 : home2 < bs.length := Nat.mod_lt _ hlen
        have hpdeq : pdAt bs pos = probe_distance_ bs.length pos home2 := by
          rw [hhome2]
          exact (pdAt_def bs pos).symm
        have hdecomp : (home2 + pdAt bs pos) % bs.length = pos := by
          rw [hpdeq]
          exact probe_distance_decomp bs.length pos home2 hposlt hhlt2
        have habs2 : ∀ q, q < bsq.length → (bucketAt bsq q).used = true →
            bval val bsq q ≠ val l := by
          intro q hq huq
          rw [hlenq] at hq
          by_cases hqe : q = pos
          · subst hqe
            rw [hbsq, bval_set_self val bs pos p hash hposlt]
            intro h
            exact absurd (hbvpos.trans h.symm) (habs pos hposlt hu)
          · rw [hbsq, bucketAt_set_ne bs pos q _ (fun h => hqe h.symm)] at huq
            rw [hbsq, bval_set_ne val bs pos q _ (fun h => hqe h.symm)]
            intro h
            exact hqe (hG.nodup q pos hq hposlt huq hu (h.trans hbvpos.symm))
        have hwalk2 : ∀ i, i < pdAt bs pos + 1 →
            (bucketAt bsq ((which_bucket_ bsq.length
              (bucketAt bs pos).hash_code + i) % bsq.length)).used = true ∧
            i ≤ pdAt bsq ((which_bucket_ bsq.length
              (bucketAt bs pos).hash_code + i) % bsq.length) := by
          intro i hi
          rw [hlenq, ← hhome2]
          rcases Nat.lt_or_ge i (pdAt bs pos) with hilt | hige
          · obtain ⟨hu3, hpd3⟩ := hG.chain pos hposlt hu i hilt
            rw [← hhome2] at hu3 hpd3
            have hwne : pos ≠ (home2 + i) % bs.length := by
              conv_lhs => rw [← hdecomp]
              exact walk_ne bs.length home2 (pdAt bs pos) i hhlt2 hpdlt
                (by omega) (by omega)
            rw [hbsq, bucketAt_set_ne bs pos _ _ hwne,
              pdAt_set_ne bs pos _ _ hwne]
            exact ⟨hu3, hpd3⟩
          · have hieq : i = pdAt bs pos := by omega
            rw [hieq, hdecomp]
            rw [hbsq, bucketAt_set_self bs pos _ hposlt]
            refine ⟨rfl, ?_⟩
            have hpdq : pdAt bsq pos = dist := by
              unfold pdAt
              rw [hlenq, hbsq, bucketAt_set_self bs pos _ hposlt]
              show probe_distance_ bs.length pos
                (which_bucket_ bs.length hash) = dist
              rw [← hhome, hpos]
              exact probe_distance_mod bs.length home dist hhlt hdlt
            rw [hbsq] at hpdq
            rw [hpdq]
            omega
        have hfree2 : (bucketAt bsq ((which_bucket_ bsq.length
            (bucketAt bs pos).hash_code + (pdAt bs pos + 1 + (m - 1))) %
            bsq.length)).used = false := by
          rw [hlenq, ← hhome2]
          have hstep : (home2 + (pdAt bs pos + 1 + (m - 1))) % bs.length =
              (home + (dist + m)) % bs.length := by
            have h1 : home2 + (pdAt bs pos + 1 + (m - 1)) =
                (home2 + pdAt bs pos) + m := by omega
            rw [h1]
            conv_lhs => rw [← Nat.mod_add_mod, hdecomp]
            rw [hpos, walk_add]
          rw [hstep]
          have hne : (home + (dist + m)) % bs.length ≠ pos := by
            rw [hpos]
            exact walk_ne bs.length home (dist + m) dist hhlt (by omega) hdlt
              (by omega)
          rw [hbsq, bucketAt_set_ne bs pos _ _ (fun h => hne h.symm)]
          exact hfree
        have hposeq : (which_bucket_ bsq.length
            (bucketAt bs pos).hash_code + (pdAt bs pos + 1)) % bsq.length =
            next_bucket_ bs.length pos := by
          rw [hlenq, ← hhome2]
          have h2 : home2 + (pdAt bs pos + 1) = (home2 + pdAt bs pos) + 1 := by
            omega
          rw [h2]
          conv_lhs => rw [← Nat.mod_add_mod, hdecomp]
          rfl
        obtain ⟨bs2, heq2, hlen2, hG2, hcount2, hmem2⟩ :=
          ih bsq size ((bucketAt bs pos).hash_code) l (pdAt bs pos + 1) (m - 1)
            hGq hall hh2 habs2 hwalk2 (by omega)
            (by
              rw [hlenq]
              have : pdAt bs pos + 1 + (m - 1) = pdAt bs pos + m := by omega
              rw [this]
              omega)
            hfree2
        rw [hposeq] at heq2
        refine ⟨bs2, ?_, by rw [hlen2, hlenq], hG2, ?_, ?_⟩
        · rw [insertLoop, if_neg (by simp [hu]), hlk]
          simp only []
          rw [if_neg (by simp [hnm])]
          rw [if_pos (by rw [pdAt_def]; omega)]
          rw [pdAt_def]
          rw [← hbsq]
          exact heq2
        · have hosc := usedCount_set bs pos hposlt ⟨some p, true, hash⟩
          rw [hu] at hosc
          simp at hosc
          rw [← hbsq] at hosc
          omega
        · intro k
          rw [hmem2 k]
          have hmemq : ∀ k2, memVal val bsq k2 ↔
              (k2 = val p ∨ (memVal val bs k2 ∧ k2 ≠ val l)) := by
            intro k2
            unfold memVal
            constructor
            · rintro ⟨q, hq, huq, hvq⟩
              rw [hlenq] at hq
              by_cases hqe : q = pos
              · subst hqe
                rw [hbsq, bval_set_self val bs pos p hash hposlt] at hvq
                exact Or.inl hvq.symm
              · rw [hbsq, bucketAt_set_ne bs pos q _ (fun h => hqe h.symm)]
                  at huq
                rw [hbsq, bval_set_ne val bs pos q _ (fun h => hqe h.symm)]
                  at hvq
                refine Or.inr ⟨⟨q, hq, huq, hvq⟩, ?_⟩
                intro hkl
                exact hqe (hG.nodup q pos hq hposlt huq hu
                  (by rw [hvq, hkl, hbvpos]))
            · rintro (hk | ⟨⟨q, hq, huq, hvq⟩, hkl⟩)
              · refine ⟨pos, by rw [hlenq]; exact hposlt,
                  by rw [hbsq, bucketAt_set_self bs pos _ hposlt], ?_⟩
                rw [hbsq, bval_set_self val bs pos p hash hposlt]
                exact hk.symm
              · have hqe : q ≠ pos := by
                  intro h
                  rw [h, hbvpos] at hvq
                  exact hkl hvq.symm
                refine ⟨q, by rw [hlenq]; exact hq, ?_, ?_⟩
                · rw [hbsq, bucketAt_set_ne bs pos q _ (fun h => hqe h.symm)]
                  exact huq
                · rw [hbsq, bval_set_ne val bs pos q _ (fun h => hqe h.symm)]
                  exact hvq
          rw [hmemq k]
          constructor
          · rintro ((hk | ⟨hmk, _⟩) | hkl)
            · exact Or.inr hk
            · exact Or.inl hmk
            · exact Or.inl ⟨pos, hposlt, hu, by rw [hbvpos, hkl]⟩
          · rintro (⟨q, hq, huq, hvq⟩ | hk)
            · by_cases hql : k = val l
              · exact Or.inr hql
              · exact Or.inl (Or.inr ⟨⟨q, hq, huq, hvq⟩, hql⟩)
            · exact Or.inl (Or.inl hk)
      · -- the resident is at least as deep: step forward
        obtain ⟨bs2, heq2, hlen2, hG2, hcount2, hmem2⟩ :=
          ih bs size hash p (dist + 1) (m - 1) hG hal hh habs
            (by
              intro i hi
              rcases Nat.lt_or_ge i dist with hilt | hige
              · exact hwalk i hilt
              · have hieq : i = dist := by omega
                subst hieq
                rw [← hhome, ← hpos]
                exact ⟨hu, by omega⟩)
            (by omega) (by omega)
            (by
              have : dist + 1 + (m - 1) = dist + m := by omega
              rw [this]
              exact hfree)
        rw [← hhome] at heq2
        refine ⟨bs2, ?_, hlen2, hG2, hcount2, hmem2⟩
        rw [insertLoop, if_neg (by simp [hu]), hlk]
        simp only []
        rw [if_neg (by simp [hnm])]
        rw [if_neg (by rw [pdAt_def]; omega)]
        rw [hnxt]
        exact heq2

/-- bucketAt_replicate: every slot of a fresh buffer holds the default
bucket. -/
theorem bucketAt_replicate (n q : Nat) :
    bucketAt (List.replicate n emptyBucket) q = emptyBucket := by
  unfold bucketAt
  rw [List.getD_eq_getElem?_getD, List.getElem?_replicate]
  by_cases h : q < n
  · rw [if_pos h]
    rfl
  · rw [if_neg h]
    rfl

/-- insert_good: table-level insertion into a well-formed all-live
table with spare capacity: the rebuild invariant is preserved, the size
counter keeps tracking the used-bucket count, and the stored set gains
exactly the inserted value. -/
theorem insert_good (alive : Nat → Bool) (val F : Nat → Nat)
    (T : Table) (hash p : Nat)
    (hG : GoodT alive val (fun v => mhash F v) T.buckets)
    (hsz : T.size_ = usedCount T.buckets)
    (hcap : usedCount T.buckets < T.cap)
    (hal : alive p = true) (hh : hash = mhash F (val p)) :
    ∃ T2, insert_ alive val T hash p = some T2 ∧
      T2.cap = T.cap ∧
      GoodT alive val (fun v => mhash F v) T2.buckets ∧
      T2.size_ = usedCount T2.buckets ∧
      usedCount T2.buckets ≤ usedCount T.buckets + 1 ∧
      (∀ k, memVal val T2.buckets k ↔ memVal val T.buckets k ∨ k = val p) := by
  have hlen : T.cap = T.buckets.length := rfl
  have hlen0 : 0 < T.buckets.length := by omega
  by_cases hmem : memVal val T.buckets (val p)
  · obtain ⟨e, he, hue, hve⟩ := hmem
    have hstored : (bucketAt T.buckets e).hash_code = hash := by
      obtain ⟨pe, hpe, hhce⟩ := hG.hashCons e he hue
      have hv2 : val pe = val p := by
        unfold bval at hve
        rw [hpe] at hve
        exact hve
      rw [hhce]
      show mhash F (val pe) = hash
      rw [hv2, hh]
    have hrep := insertLoop_replaces alive val (fun v => mhash F v) T.buckets
      T.size_ hash p e T.cap hG hh he hue hve
      (by
        have := probe_distance_lt T.buckets.length e
          (which_bucket_ T.buckets.length (bucketAt T.buckets e).hash_code)
          he (Nat.mod_lt _ hlen0)
        unfold pdAt
        omega)
    obtain ⟨hGr, hcr, hmr⟩ := GoodT_replace alive val (fun v => mhash F v)
      T.buckets e p hash hG he hue hal hh hve hstored
    refine ⟨⟨T.buckets.set e ⟨some p, true, hash⟩, T.size_⟩, ?_, ?_, hGr, ?_,
      ?_, ?_⟩
    · unfold insert_
      have hrep2 : insertLoop alive val T.cap T.buckets T.size_ hash p
          (which_bucket_ T.cap hash) 0 =
          some (T.buckets.set e ⟨some p, true, hash⟩, T.size_) := hrep
      rw [hrep2]
    · show (T.buckets.set e ⟨some p, true, hash⟩).length = T.cap
      rw [List.length_set, hlen]
    · show T.size_ = usedCount (T.buckets.set e ⟨some p, true, hash⟩)
      rw [hcr, hsz]
    · show usedCount (T.buckets.set e ⟨some p, true, hash⟩) ≤
        usedCount T.buckets + 1
      rw [hcr]
      omega
    · intro k
      show memVal val (T.buckets.set e ⟨some p, true, hash⟩) k ↔ _
      rw [hmr k]
      constructor
      · exact Or.inl
      · rintro (h | h)
        · exact h
        · exact ⟨e, he, hue, by rw [hve, h]⟩
  · obtain ⟨u, hu, huu⟩ := exists_unused_of_lt T.buckets (by omega)
    set home := which_bucket_ T.buckets.length hash with hhome
    have hhlt : home < T.buckets.length := Nat.mod_lt _ hlen0
    set m := probe_distance_ T.buckets.length u home with hm
    have hmlt : m < T.buckets.length := probe_distance_lt _ _ _ hu hhlt
    have hdecu : (home + m) % T.buckets.length = u :=
      probe_distance_decomp T.buckets.length u home hu hhlt
    have hfr := insertLoop_fresh alive val (fun v => mhash F v) T.cap
      T.buckets T.size_ hash p 0 m hG hal hh
      (by
        intro q hq huq hv
        exact hmem ⟨q, hq, huq, hv⟩)
      (fun i hi => absurd hi (by omega))
      (by omega) (by omega)
      (by
        rw [← hhome]
        show (bucketAt T.buckets ((home + (0 + m)) % T.buckets.length)).used
          = false
        rw [Nat.zero_add, hdecu]
        exact huu)
    rw [← hhome] at hfr
    obtain ⟨bs2, heq2, hlen2, hG2, hcount2, hmem2⟩ := hfr
    refine ⟨⟨bs2, T.size_ + 1⟩, ?_, hlen2, hG2, ?_, ?_, hmem2⟩
    · unfold insert_
      have heq3 : insertLoop alive val T.cap T.buckets T.size_ hash p
          (which_bucket_ T.cap hash) 0 = some (bs2, T.size_ + 1) := by
        rw [show which_bucket_ T.cap hash = (home + 0) % T.buckets.length by
          rw [Nat.add_zero, Nat.mod_eq_of_lt hhlt, hhome]
          rfl]
        exact heq2
      rw [heq3]
    · show T.size_ + 1 = usedCount bs2
      omega
    · show usedCount bs2 ≤ usedCount T.buckets + 1
      omega

/-- liveCount is the number of buckets in a list that are used and
still lockable: exactly those `resize_` migrates. -/
def liveCount (alive : Nat → Bool) (olds : List Bucket) : Nat :=
  (olds.filter fun b => b.used && (lockB alive b).isSome).length

theorem liveCount_cons (alive : Nat → Bool) (b : Bucket) (tl : List Bucket) :
    liveCount alive (b :: tl) =
      (if b.used && (lockB alive b).isSome then 1 else 0) + liveCount alive tl := by
  unfold liveCount
  cases hb : (b.used && (lockB alive b).isSome)
  · simp [List.filter, hb]
  · simp [List.filter, hb]
    omega

/-- reinsertAll_good: migrating a list of old buckets into a
well-formed all-live table with enough spare capacity succeeds and
yields a well-formed table storing exactly the old values plus every
still-live migrated value. -/
theorem reinsertAll_good (alive : Nat → Bool) (val F : Nat → Nat) :
    ∀ (olds : List Bucket) (T : Table),
      GoodT alive val (fun v => mhash F v) T.buckets →
      T.size_ = usedCount T.buckets →
      (∀ b, b ∈ olds → b.used = true → ∀ p2, lockB alive b = some p2 →
        b.hash_code = mhash F (val p2)) →
      usedCount T.buckets + liveCount alive olds < T.cap →
      ∃ T2, reinsertAll alive val olds (some T) = some T2 ∧
        T2.cap = T.cap ∧
        GoodT alive val (fun v => mhash F v) T2.buckets ∧
        T2.size_ = usedCount T2.buckets ∧
        usedCount T2.buckets ≤ usedCount T.buckets + liveCount alive olds ∧
        (∀ k, memVal val T2.buckets k ↔ memVal val T.buckets k ∨
          ∃ b, b ∈ olds ∧ b.used = true ∧
            ∃ p2, lockB alive b = some p2 ∧ val p2 = k) := by
  intro olds
  induction olds with
  | nil =>
    intro T hG hsz hold hcap
    refine ⟨T, rfl, rfl, hG, hsz, by
      rw [show liveCount alive [] = 0 from rfl]
      omega, ?_⟩
    intro k
    constructor
    · exact Or.inl
    · rintro (h | ⟨b, hb, _⟩)
      · exact h
      · exact absurd hb (by simp)
  | cons b tl ih =>
    intro T hG hsz hold hcap
    rw [liveCount_cons] at hcap
    cases hbu : b.used with
    | false =>
      have hstep : reinsertAll alive val (b :: tl) (some T) =
          reinsertAll alive val tl (some T) := by
        show reinsertAll alive val tl
            (if b.used = true then
              match lockB alive b with
              | some p => insert_ alive val T b.hash_code p
              | none => some T
            else some T) = reinsertAll alive val tl (some T)
        rw [if_neg (by simp [hbu])]
      rw [hstep]
      rw [hbu] at hcap
      simp only [Bool.false_and, if_neg (by simp : ¬(false = true))] at hcap
      obtain ⟨T2, heq, hc, hG2, hs2, hcnt, hmem⟩ := ih T hG hsz
        (fun b2 hb2 => hold b2 (List.mem_cons_of_mem b hb2))
        (by omega)
      refine ⟨T2, heq, hc, hG2, hs2, ?_, ?_⟩
      · rw [liveCount_cons, hbu]
        simp only [Bool.false_and, if_neg (by simp : ¬(false = true))]
        omega
      · intro k
        rw [hmem k]
        constructor
        · rintro (h | ⟨b2, hb2, h2⟩)
          · exact Or.inl h
          · exact Or.inr ⟨b2, List.mem_cons_of_mem b hb2, h2⟩
        · rintro (h | ⟨b2, hb2, hu2, h2⟩)
          · exact Or.inl h
          · rcases List.mem_cons.mp hb2 with hbb | hbb
            · subst hbb
              rw [hbu] at hu2
              exact absurd hu2 (by simp)
            · exact Or.inr ⟨b2, hbb, hu2, h2⟩
    | true =>
      cases hbl : lockB alive b with
      | none =>
        have hstep : reinsertAll alive val (b :: tl) (some T) =
            reinsertAll alive val tl (some T) := by
          show reinsertAll alive val tl
              (if b.used = true then
                match lockB alive b with
                | some p => insert_ alive val T b.hash_code p
                | none => some T
              else some T) = reinsertAll alive val tl (some T)
          rw [if_pos hbu, hbl]
        rw [hstep]
        rw [hbu, hbl] at hcap
        simp only [Option.isSome_none, Bool.and_false,
          if_neg (by simp : ¬(false = true))] at hcap
        obtain ⟨T2, heq, hc, hG2, hs2, hcnt, hmem⟩ := ih T hG hsz
          (fun b2 hb2 => hold b2 (List.mem_cons_of_mem b hb2))
          (by omega)
        refine ⟨T2, heq, hc, hG2, hs2, ?_, ?_⟩
        · rw [liveCount_cons, hbu, hbl]
          simp only [Option.isSome_none, Bool.and_false,
            if_neg (by simp : ¬(false = true))]
          omega
        · intro k
          rw [hmem k]
          constructor
          · rintro (h | ⟨b2, hb2, h2⟩)
            · exact Or.inl h
            · exact Or.inr ⟨b2, List.mem_cons_of_mem b hb2, h2⟩
          · rintro (h | ⟨b2, hb2, hu2, p3, hl3, h3⟩)
            · exact Or.inl h
            · rcases List.mem_cons.mp hb2 with hbb | hbb
              · subst hbb
                rw [hbl] at hl3
                exact absurd hl3 (by simp)
              · exact Or.inr ⟨b2, hbb, hu2, p3, hl3, h3⟩
      | some p2 =>
        have hhash : b.hash_code = mhash F (val p2) :=
          hold b (List.mem_cons_self b tl) hbu p2 hbl
        rw [hbu, hbl] at hcap
        simp at hcap
        obtain ⟨T1, hins, hc1, hG1, hs1, hcnt1, hmem1⟩ :=
          insert_good alive val F T b.hash_code p2 hG hsz
            (by omega)
            ((lockB_some_iff alive b p2).mp hbl).2 hhash
        have hstep : reinsertAll alive val (b :: tl) (some T) =
            reinsertAll alive val tl (some T1) := by
          show reinsertAll alive val tl
              (if b.used = true then
                match lockB alive b with
                | some p => insert_ alive val T b.hash_code p
                | none => some T
              else some T) = reinsertAll alive val tl (some T1)
          rw [if_pos hbu, hbl]
          show reinsertAll alive val tl (insert_ alive val T b.hash_code p2) =
            reinsertAll alive val tl (some T1)
          rw [hins]
        rw [hstep]
        obtain ⟨T2, heq, hc, hG2, hs2, hcnt, hmem⟩ := ih T1 hG1 hs1
          (fun b2 hb2 => hold b2 (List.mem_cons_of_mem b hb2))
          (by
            rw [hc1]
            omega)
        refine ⟨T2, heq, by rw [hc, hc1], hG2, hs2, ?_, ?_⟩
        · rw [liveCount_cons, hbu, hbl]
          simp
          omega
        · intro k
          rw [hmem k, hmem1 k]
          constructor
          · rintro ((h | h) | ⟨b2, hb2, h2⟩)
            · exact Or.inl h
            · exact Or.inr ⟨b, List.mem_cons_self b tl, hbu, p2, hbl, h.symm⟩
            · exact Or.inr ⟨b2, List.mem_cons_of_mem b hb2, h2⟩
          · rintro (h | ⟨b2, hb2, hu2, p3, hl3, h3⟩)
            · exact Or.inl (Or.inl h)
            · rcases List.mem_cons.mp hb2 with hbb | hbb
              · subst hbb
                rw [hbl] at hl3
                cases Option.some_inj.mp hl3
                exact Or.inl (Or.inr h3.symm)
              · exact Or.inr ⟨b2, hbb, hu2, p3, hl3, h3⟩

theorem liveCount_le_usedCount (alive : Nat → Bool) (bs : List Bucket) :
    liveCount alive bs ≤ usedCount bs := by
  induction bs with
  | nil => simp [liveCount, usedCount]
  | cons b tl ih =>
    rw [liveCount_cons, usedCount_cons]
    cases hb : b.used
    · simp
      omega
    · cases hl : (lockB alive b).isSome <;> simp <;> omega

/-- bucketAt_mem: reading below the length is list membership. -/
theorem bucketAt_mem (bs : List Bucket) (q : Nat) (h : q < bs.length) :
    bucketAt bs q ∈ bs := by
  unfold bucketAt
  rw [List.getD_eq_getElem?_getD, List.getElem?_eq_getElem h]
  exact List.getElem_mem h

theorem mem_bucketAt (bs : List Bucket) (b : Bucket) (h : b ∈ bs) :
    ∃ q, q < bs.length ∧ bucketAt bs q = b := by
  obtain ⟨i, hi, hb⟩ := List.mem_iff_getElem.mp h
  refine ⟨i, hi, ?_⟩
  unfold bucketAt
  rw [List.getD_eq_getElem?_getD, List.getElem?_eq_getElem hi, hb]
  rfl

/-- GoodT_fresh: a fresh buffer of default buckets is well-formed. -/
theorem GoodT_fresh (alive : Nat → Bool) (val H : Nat → Nat) (n : Nat) :
    GoodT alive val H (List.replicate n emptyBucket) := by
  refine ⟨?_, ?_, ?_, ?_⟩
  · intro q hq hu
    rw [bucketAt_replicate] at hu
    exact absurd hu (by simp [emptyBucket])
  · intro q hq hu
    rw [bucketAt_replicate] at hu
    exact absurd hu (by simp [emptyBucket])
  · intro q hq hu
    rw [bucketAt_replicate] at hu
    exact absurd hu (by simp [emptyBucket])
  · intro q r hq hr huq
    rw [bucketAt_replicate] at huq
    exact absurd huq (by simp [emptyBucket])

/-- resize_good: under the asserted precondition, `resize_` rebuilds
the table into a well-formed all-live one storing exactly the live
values of the old buckets. -/
theorem resize_good (alive : Nat → Bool) (val F : Nat → Nat)
    (T : Table) (new_capacity : Nat)
    (hhc : HCons val (fun v => mhash F v) T.buckets)
    (hsz : T.size_ = usedCount T.buckets)
    (hguard : T.size_ < new_capacity) :
    ∃ T2, resize_ alive val T new_capacity = some T2 ∧
      T2.cap = new_capacity ∧
      GoodT alive val (fun v => mhash F v) T2.buckets ∧
      T2.size_ = usedCount T2.buckets ∧
      usedCount T2.buckets ≤ usedCount T.buckets ∧
      (∀ k, memVal val T2.buckets k ↔
        ∃ q, q < T.cap ∧ liveValAt alive val T.buckets q k) := by
  have hlen : T.cap = T.buckets.length := rfl
  obtain ⟨T2, heq, hc, hG2, hs2, hcnt, hmem⟩ :=
    reinsertAll_good alive val F T.buckets (mkTable new_capacity)
      (GoodT_fresh alive val (fun v => mhash F v) new_capacity)
      (by
        show (0 : Nat) = usedCount (List.replicate new_capacity emptyBucket)
        rw [usedCount_replicate_empty])
      (by
        intro b hb hbu p2 hl2
        obtain ⟨q, hq, hbq⟩ := mem_bucketAt T.buckets b hb
        obtain ⟨p3, hp3, hh3⟩ := hhc q hq (by rw [hbq]; exact hbu)
        obtain ⟨hp4, _⟩ := (lockB_some_iff alive b p2).mp hl2
        rw [← hbq] at hp4
        rw [hp4] at hp3
        cases Option.some_inj.mp hp3
        rw [← hbq]
        exact hh3)
      (by
        show usedCount (List.replicate new_capacity emptyBucket) +
          liveCount alive T.buckets < (mkTable new_capacity).cap
        rw [usedCount_replicate_empty]
        have h1 := liveCount_le_usedCount alive T.buckets
        have h2 : (mkTable new_capacity).cap = new_capacity := by
          show (List.replicate new_capacity emptyBucket).length = new_capacity
          rw [List.length_replicate]
        omega)
  refine ⟨T2, ?_, ?_, hG2, hs2, ?_, ?_⟩
  · unfold resize_
    rw [if_neg (by omega)]
    exact heq
  · rw [hc]
    show (List.replicate new_capacity emptyBucket).length = new_capacity
    rw [List.length_replicate]
  · have : usedCount (mkTable new_capacity).buckets = 0 := by
      show usedCount (List.replicate new_capacity emptyBucket) = 0
      rw [usedCount_replicate_empty]
    rw [this] at hcnt
    have := liveCount_le_usedCount alive T.buckets
    omega
  · intro k
    rw [hmem k]
    constructor
    · rintro (h | ⟨b, hb, hbu, p2, hl2, hv2⟩)
      · obtain ⟨q, hq, hu, _⟩ := h
        rw [show (mkTable new_capacity).buckets =
          List.replicate new_capacity emptyBucket from rfl,
          bucketAt_replicate] at hu
        exact absurd hu (by simp [emptyBucket])
      · obtain ⟨q, hq, hbq⟩ := mem_bucketAt T.buckets b hb
        obtain ⟨hp2, hal2⟩ := (lockB_some_iff alive b p2).mp hl2
        exact ⟨q, by rw [hlen]; exact hq,
          by rw [hbq]; exact hbu, p2, by rw [hbq]; exact hp2, hal2, hv2⟩
    · rintro ⟨q, hq, hu, p2, hp2, hal2, hv2⟩
      refine Or.inr ⟨bucketAt T.buckets q,
        bucketAt_mem T.buckets q (by rw [← hlen]; exact hq), hu, p2, ?_, hv2⟩
      exact (lockB_some_iff alive _ p2).mpr ⟨hp2, hal2⟩

/-- memVal_member: in a well-formed all-live table every stored value
is found by `member` (the lookup walk follows the value's chain and
cannot be cut off before reaching it). -/
theorem memVal_member (alive : Nat → Bool) (val F : Nat → Nat)
    (T : Table) (k : Nat)
    (hG : GoodT alive val (fun v => mhash F v) T.buckets)
    (hcap : 0 < T.cap)
    (hk : memVal val T.buckets k) : member alive val F T k = true := by
  have hlen : T.cap = T.buckets.length := rfl
  have hlen0 : 0 < T.buckets.length := by omega
  obtain ⟨e, he, hue, hve⟩ := hk
  obtain ⟨pe, hpe, hale⟩ := hG.allLive e he hue
  obtain ⟨pe2, hpe2, hhce⟩ := hG.hashCons e he hue
  rw [hpe] at hpe2
  cases Option.some_inj.mp hpe2
  have hvpe : val pe = k := by
    unfold bval at hve
    rw [hpe] at hve
    exact hve
  have hstored : (bucketAt T.buckets e).hash_code = mhash F k := by
    rw [hhce]
    show mhash F (val pe) = mhash F k
    rw [hvpe]
  set home := which_bucket_ T.buckets.length (mhash F k) with hhome
  have hhlt : home < T.buckets.length := Nat.mod_lt _ hlen0
  set d := pdAt T.buckets e with hd
  have hdlt : d < T.buckets.length := by
    rw [hd]
    unfold pdAt
    exact probe_distance_lt _ _ _ he (Nat.mod_lt _ hlen0)
  have hed : e = (home + d) % T.buckets.length := by
    rw [hd]
    unfold pdAt
    rw [show which_bucket_ T.buckets.length (bucketAt T.buckets e).hash_code
      = home by rw [hstored]]
    exact (probe_distance_decomp T.buckets.length e home he hhlt).symm
  obtain ⟨j, hj⟩ := lookupLoop_reaches alive val T.buckets (mhash F k) k home d
    (by
      intro i hi
      have hch := hG.chain e he hue i (by omega)
      rw [show which_bucket_ T.buckets.length (bucketAt T.buckets e).hash_code
        = home by rw [hstored]] at hch
      exact hch)
    (by rw [← hed]; exact hue)
    (by rw [← hed])
    (by
      rw [← hed]
      unfold matchB
      rw [hstored, (lockB_some_iff alive _ pe).mpr ⟨hpe, hale⟩]
      simp [hvpe])
    d (T.buckets.length + 1) 0 (by omega) (by omega)
  unfold member lookup_
  have hj2 : lookupLoop alive val T.buckets (mhash F k) k (T.cap + 1)
      (which_bucket_ T.cap (mhash F k)) 0 = some j := by
    have h3 : which_bucket_ T.cap (mhash F k) =
        (home + 0) % T.buckets.length := by
      rw [Nat.add_zero, Nat.mod_eq_of_lt hhlt, hhome]
      rfl
    rw [h3]
    exact hj
  rw [hj2]
  rfl

/-! ## Reachable states -/

/-- Inv is the state invariant of the public interface: positive
capacity, a size counter equal to the used-bucket count, spare
capacity, and stored-hash consistency.  It holds in every state
reachable by the public operations (`reached_inv`). -/
def Inv (val F : Nat → Nat) (T : Table) : Prop :=
  0 < T.cap ∧ T.size_ = usedCount T.buckets ∧ usedCount T.buckets < T.cap ∧
  HCons val (fun v => mhash F v) T.buckets

/-- insert_member_inv: on any state satisfying the invariant, the full
public `insert` (including the growth check) succeeds, re-establishes
the invariant, and makes the inserted pointer's value a member. -/
theorem insert_member_inv (alive : Nat → Bool) (val F : Nat → Nat)
    (T : Table) (p : Nat) (hI : Inv val F T) (hal : alive p = true) :
    ∃ T2, insert alive val F T p = some T2 ∧ Inv val F T2 ∧
      member alive val F T2 (val p) = true := by
  obtain ⟨hcap, hsz, hused, hhc⟩ := hI
  have hlen : T.cap = T.buckets.length := rfl
  obtain ⟨u, hu, huu⟩ := exists_unused_of_lt T.buckets (by omega)
  set hash := mhash F (val p) with hhash
  set home := which_bucket_ T.cap hash with hhome
  have hhlt : home < T.buckets.length := by
    rw [hhome, ← hlen]
    exact Nat.mod_lt _ hcap
  set mf := probe_distance_ T.buckets.length u home with hmf
  have hmflt : mf < T.buckets.length := probe_distance_lt _ _ _ hu hhlt
  have hdecu : (home + mf) % T.buckets.length = u :=
    probe_distance_decomp T.buckets.length u home hu hhlt
  obtain ⟨T1, heq1, hc1, hmem1, ⟨e, helt, hbe⟩, hs1a, hs1b, hdelta, hhc1⟩ :=
    insert_member_core alive val F T p mf hcap (by omega)
      (by
        show freeB alive (bucketAt T.buckets ((home + mf) % T.cap)) = true
        rw [hlen, hdecu]
        unfold freeB
        rw [huu]
        simp)
      hhc hal
  have hsz1 : T1.size_ = usedCount T1.buckets := by omega
  have hused1 : usedCount T1.buckets ≤ T.cap := by omega
  have hcap1 : 0 < T1.cap := by omega
  have hlen1 : T1.cap = T1.buckets.length := rfl
  by_cases htrig : 4 * T1.size_ > 3 * T1.cap
  · -- the insert triggers growth
    obtain ⟨T2, heq2, hc2, hG2, hs2, hcnt2, hmem2⟩ :=
      resize_good alive val F T1 (2 * T1.cap) hhc1 hsz1
        (by
          have := usedCount_le T1.buckets
          omega)
    refine ⟨T2, ?_, ⟨by omega, hs2, ?_, hG2.hashCons⟩, ?_⟩
    · unfold insert
      rw [← hhash, heq1]
      show maybe_grow_ alive val T1 = some T2
      unfold maybe_grow_
      rw [if_pos htrig]
      exact heq2
    · omega
    · refine memVal_member alive val F T2 (val p) hG2 (by omega) ?_
      refine (hmem2 (val p)).mpr ⟨e, by omega, ?_⟩
      unfold liveValAt
      rw [hbe]
      exact ⟨rfl, p, rfl, hal, rfl⟩
  · refine ⟨T1, ?_, ⟨hcap1, hsz1, by omega, hhc1⟩, hmem1⟩
    unfold insert
    rw [← hhash, heq1]
    show maybe_grow_ alive val T1 = some T1
    unfold maybe_grow_
    rw [if_neg htrig]

/-- Reached describes the table states produced by the public
interface: construction with a positive capacity, followed by any
sequence of public `insert` calls, each performed while its argument's
pointee is kept alive by the calling owner, under arbitrary external
expiry (each step carries its own view of which pointers are alive). -/
inductive Reached (val F : Nat → Nat) : Table → Prop
  | init (capacity : Nat) : 0 < capacity → Reached val F (mkTable capacity)
  | step (alive : Nat → Bool) (T T2 : Table) (p : Nat) :
      Reached val F T → alive p = true →
      insert alive val F T p = some T2 → Reached val F T2

/-- reached_inv: the state invariant holds in every reachable state. -/
theorem reached_inv (val F : Nat → Nat) (T : Table)
    (h : Reached val F T) : Inv val F T := by
  induction h with
  | init capacity hcap =>
    refine ⟨?_, ?_, ?_, ?_⟩
    · show 0 < (List.replicate capacity emptyBucket).length
      rw [List.length_replicate]
      exact hcap
    · show (0 : Nat) = usedCount (List.replicate capacity emptyBucket)
      rw [usedCount_replicate_empty]
    · show usedCount (List.replicate capacity emptyBucket) <
        (List.replicate capacity emptyBucket).length
      rw [usedCount_replicate_empty, List.length_replicate]
      exact hcap
    · intro q hq hu
      rw [show bucketAt (mkTable capacity).buckets q = emptyBucket from
        bucketAt_replicate capacity q] at hu
      exact absurd hu (by simp [emptyBucket])
  | step alive T T2 p hR hal heq ih =>
    obtain ⟨T3, heq3, hI3, _⟩ := insert_member_inv alive val F T p ih hal
    rw [heq] at heq3
    cases Option.some_inj.mp heq3
    exact hI3

/-! ## Facts about the iteration sequence -/

theorem occupied_ptr_alive (alive : Nat → Bool) (b : Bucket) (p : Nat)
    (hocc : occupiedB alive b = true) (hp : b.ptr = some p) :
    alive p = true := by
  unfold occupiedB at hocc
  obtain ⟨_, hsome⟩ := (Bool.and_eq_true _ _).mp hocc
  match hl : lockB alive b with
  | none => rw [hl] at hsome; exact absurd hsome (by simp)
  | some l =>
    obtain ⟨hp2, hal⟩ := (lockB_some_iff alive b l).mp hl
    rw [hp] at hp2
    cases Option.some_inj.mp hp2
    exact hal

/-- mem_iterPtrs: the iterator's output contains exactly the pointers
of the buckets that are used and still lockable. -/
theorem mem_iterPtrs (alive : Nat → Bool) (T : Table) (p : Nat) :
    p ∈ iterPtrs alive T ↔
      ∃ b, b ∈ T.buckets ∧ occupiedB alive b = true ∧ b.ptr = some p := by
  unfold iterPtrs
  rw [List.mem_filterMap]
  constructor
  · rintro ⟨b, hb, hf⟩
    by_cases hocc : occupiedB alive b = true
    · rw [if_pos hocc] at hf
      exact ⟨b, hb, hocc, hf⟩
    · rw [if_neg hocc] at hf
      exact absurd hf (by simp)
  · rintro ⟨b, hb, hocc, hp⟩
    exact ⟨b, hb, by rw [if_pos hocc]; exact hp⟩

/-- expired_not_in_iterPtrs: a pointer with no remaining strong owner
is never produced by the iteration. -/
theorem expired_not_in_iterPtrs (alive : Nat → Bool) (T : Table) (p : Nat)
    (hdead : alive p = false) : p ∉ iterPtrs alive T := by
  intro h
  obtain ⟨b, _, hocc, hp⟩ := (mem_iterPtrs alive T p).mp h
  rw [occupied_ptr_alive alive b p hocc hp] at hdead
  exact absurd hdead (by simp)

/-- mem_iterVals: the iterated values are exactly the values held by
live buckets. -/
theorem mem_iterVals (alive : Nat → Bool) (val : Nat → Nat) (T : Table)
    (k : Nat) :
    k ∈ iterVals alive val T ↔
      ∃ q, q < T.cap ∧ liveValAt alive val T.buckets q k := by
  unfold iterVals
  rw [List.mem_map]
  constructor
  · rintro ⟨p, hp, hv⟩
    obtain ⟨b, hb, hocc, hbp⟩ := (mem_iterPtrs alive T p).mp hp
    obtain ⟨q, hq, hbq⟩ := mem_bucketAt T.buckets b hb
    have hal : alive p = true := occupied_ptr_alive alive b p hocc hbp
    have hused : b.used = true := ((Bool.and_eq_true _ _).mp hocc).1
    exact ⟨q, hq, by rw [hbq]; exact hused, p, by rw [hbq]; exact hbp, hal, hv⟩
  · rintro ⟨q, hq, hu, p, hp, hal, hv⟩
    refine ⟨p, (mem_iterPtrs alive T p).mpr
      ⟨bucketAt T.buckets q, bucketAt_mem T.buckets q hq, ?_, hp⟩, hv⟩
    unfold occupiedB
    rw [hu, (lockB_some_iff alive _ p).mpr ⟨hp, hal⟩]
    rfl

/-- iterVals_nodup_aux: positional distinctness of the used buckets'
values makes the iterated value list duplicate-free. -/
theorem iterVals_nodup_aux (alive : Nat → Bool) (val : Nat → Nat) :
    ∀ bs : List Bucket,
      (∀ q r, q < bs.length → r < bs.length → (bucketAt bs q).used = true →
        (bucketAt bs r).used = true → bval val bs q = bval val bs r → q = r) →
      ((bs.filterMap fun b =>
        if occupiedB alive b then b.ptr else none).map val).Nodup := by
  intro bs
  induction bs with
  | nil =>
    intro _
    simp
  | cons b tl ih =>
    intro h
    have htl : ∀ q r, q < tl.length → r < tl.length →
        (bucketAt tl q).used = true → (bucketAt tl r).used = true →
        bval val tl q = bval val tl r → q = r := by
      intro q r hq hr huq hur hv
      have := h (q + 1) (r + 1) (by simpa using hq) (by simpa using hr)
        (by rw [bucketAt_cons_succ]; exact huq)
        (by rw [bucketAt_cons_succ]; exact hur)
        (by
          show bval val (b :: tl) (q + 1) = bval val (b :: tl) (r + 1)
          unfold bval
          rw [bucketAt_cons_succ, bucketAt_cons_succ]
          exact hv)
      omega
    by_cases hocc : occupiedB alive b = true
    · have hused : b.used = true := ((Bool.and_eq_true _ _).mp hocc).1
      have hsome : (lockB alive b).isSome = true :=
        ((Bool.and_eq_true _ _).mp hocc).2
      match hl : lockB alive b with
      | none => rw [hl] at hsome; exact absurd hsome (by simp)
      | some pb =>
        obtain ⟨hpb, _⟩ := (lockB_some_iff alive b pb).mp hl
        rw [List.filterMap_cons, if_pos hocc, hpb]
        rw [List.map_cons, List.nodup_cons]
        refine ⟨?_, ih htl⟩
        intro hmem
        obtain ⟨p2, hp2, hv2⟩ := List.mem_map.mp hmem
        obtain ⟨b2, hb2, hf2⟩ := List.mem_filterMap.mp hp2
        by_cases hocc2 : occupiedB alive b2 = true
        · rw [if_pos hocc2] at hf2
          obtain ⟨r, hr, hbr⟩ := mem_bucketAt tl b2 hb2
          have hused2 : b2.used = true := ((Bool.and_eq_true _ _).mp hocc2).1
          have := h 0 (r + 1) (by simp) (by simpa using hr)
            (by rw [bucketAt_cons_zero]; exact hused)
            (by rw [bucketAt_cons_succ, hbr]; exact hused2)
            (by
              have h1 : bval val (b :: tl) 0 = val pb := by
                unfold bval
                rw [bucketAt_cons_zero, hpb]
              have h2 : bval val (b :: tl) (r + 1) = val p2 := by
                unfold bval
                rw [bucketAt_cons_succ, hbr, hf2]
              rw [h1, h2, hv2])
          exact absurd this (by omega)
        · rw [if_neg hocc2] at hf2
          exact absurd hf2 (by simp)
    · rw [List.filterMap_cons, if_neg hocc]
      exact ih htl

/-- iterVals_nodup: a well-formed all-live table iterates each stored
value exactly once. -/
theorem iterVals_nodup (alive : Nat → Bool) (val H : Nat → Nat) (T : Table)
    (hG : GoodT alive val H T.buckets) : (iterVals alive val T).Nodup :=
  iterVals_nodup_aux alive val T.buckets hG.nodup

/-- lookupLoop_walk: a successful lookup decomposes into a walk from
the home slot: every bucket strictly before the found offset is used,
at least as deep as the walk, and not a match; the found bucket is
used, deep enough, and a match. -/
theorem lookupLoop_walk (alive : Nat → Bool) (val : Nat → Nat)
    (bs : List Bucket) (hash key home : Nat) (_hhlt : home < bs.length) :
    ∀ fuel dist j,
      lookupLoop alive val bs hash key fuel ((home + dist) % bs.length) dist =
        some j →
      ∃ d, dist ≤ d ∧ j = (home + d) % bs.length ∧
        (∀ i, dist ≤ i → i < d →
          (bucketAt bs ((home + i) % bs.length)).used = true ∧
          i ≤ pdAt bs ((home + i) % bs.length) ∧
          matchB alive val bs hash key ((home + i) % bs.length) = false) ∧
        (bucketAt bs ((home + d) % bs.length)).used = true ∧
        d ≤ pdAt bs ((home + d) % bs.length) ∧
        matchB alive val bs hash key ((home + d) % bs.length) = true := by
  intro fuel
  induction fuel with
  | zero => intro dist j h; exact absurd h (by simp [lookupLoop])
  | succ n ih =>
    intro dist j h
    rw [lookupLoop] at h
    split at h
    · exact absurd h (by simp)
    · split at h
      · exact absurd h (by simp)
      · split at h
        · rename_i hu hcut hm
          cases h
          refine ⟨dist, le_refl _, rfl, fun i h1 h2 => absurd h1 (by omega),
            by simpa using hu, ?_, ?_⟩
          · rw [pdAt_def] at hcut
            omega
          · unfold matchB
            exact hm
        · rename_i hu hcut hm
          rw [next_bucket_walk] at h
          obtain ⟨d, hd1, hd2, hd3, hd4, hd5, hd6⟩ := ih (dist + 1) j h
          refine ⟨d, by omega, hd2, ?_, hd4, hd5, hd6⟩
          intro i h1 h2
          rcases Nat.lt_or_ge i (dist + 1) with hi | hi
          · have hieq : i = dist := by omega
            subst hieq
            refine ⟨by simpa using hu, ?_, ?_⟩
            · rw [pdAt_def] at hcut
              omega
            · unfold matchB
              simpa using hm
          · exact hd3 i hi h2

/-! ## Executable form of liveValAt -/

/-- liveValB: Boolean form of `liveValAt`, evaluable on concrete
tables. -/
def liveValB (alive : Nat → Bool) (val : Nat → Nat) (bs : List Bucket)
    (q k : Nat) : Bool :=
  (bucketAt bs q).used &&
  (match (bucketAt bs q).ptr with
   | some p => alive p && (val p == k)
   | none => false)

theorem liveValAt_iff_liveValB (alive : Nat → Bool) (val : Nat → Nat)
    (bs : List Bucket) (q k : Nat) :
    liveValAt alive val bs q k ↔ liveValB alive val bs q k = true := by
  unfold liveValAt liveValB
  cases hp : (bucketAt bs q).ptr with
  | none => simp
  | some p => simp [Bool.and_eq_true, beq_iff_eq]

/-! ## Concrete scenarios

Concrete instantiations exercising the table and the vector: five
allocations driven through growth and expiry, and a hash-collision
query against the generic table's lookup. -/

def idf : Nat → Nat := fun v => v

def aliveAll : Nat → Bool := fun _ => true

/-- vfun gives the pointee values of five allocations: values 0, 8 and
16 share home bucket 0 at capacities 4 and 8, and allocations 4 and 5
hold the equal key 1. -/
def vfun : Nat → Nat
  | 1 => 0
  | 2 => 8
  | 3 => 16
  | 4 => 1
  | 5 => 1
  | _ => 99

/-- alive2: the aliveness view after allocation 2's strong owner is
dropped. -/
def alive2 : Nat → Bool := fun p => p != 2

def Tac : Table :=
  ⟨[⟨some 1, true, 0⟩, emptyBucket, emptyBucket, emptyBucket], 1⟩

def Tbc : Table :=
  ⟨[⟨some 1, true, 0⟩, ⟨some 2, true, 8⟩, emptyBucket, emptyBucket], 2⟩

def Tcc : Table :=
  ⟨[⟨some 1, true, 0⟩, ⟨some 2, true, 8⟩, ⟨some 3, true, 16⟩,
    emptyBucket], 3⟩

/-- Tmidc: capacity 4 completely full, the state just after the fourth
`insert_` and just before its growth check runs. -/
def Tmidc : Table :=
  ⟨[⟨some 1, true, 0⟩, ⟨some 2, true, 8⟩, ⟨some 3, true, 16⟩,
    ⟨some 4, true, 1⟩], 4⟩

/-- T4c: the state after four public inserts on an initial capacity of
4; the fourth insert triggered growth to capacity 8. -/
def T4c : Table :=
  ⟨[⟨some 1, true, 0⟩, ⟨some 2, true, 8⟩, ⟨some 3, true, 16⟩,
    ⟨some 4, true, 1⟩, emptyBucket, emptyBucket, emptyBucket,
    emptyBucket], 4⟩

/-- T5c: the state after allocation 2 expires and allocation 5 (key 1,
equal to live allocation 4's key) is inserted: the dead bucket 1 is
reclaimed in place, stranding bucket 2 and duplicating key 1. -/
def T5c : Table :=
  ⟨[⟨some 1, true, 0⟩, ⟨some 5, true, 1⟩, ⟨some 3, true, 16⟩,
    ⟨some 4, true, 1⟩, emptyBucket, emptyBucket, emptyBucket,
    emptyBucket], 4⟩

/-- c2val: allocation 1 holds the value 5. -/
def c2val : Nat → Nat
  | 1 => 5
  | _ => 77

/-- c2hash: a client hash with collisions: the distinct values 5 and 13
both hash to 1. -/
def c2hash : Nat → Nat := fun x => x % 4

/-- Tc2: the table holding allocation 1 (value 5, truncated hash 1) in
its home bucket 1 at capacity 8. -/
def Tc2 : Table :=
  ⟨[emptyBucket, ⟨some 1, true, 1⟩, emptyBucket, emptyBucket,
    emptyBucket, emptyBucket, emptyBucket, emptyBucket], 1⟩

/-- c3val: every allocation holds the value 5. -/
def c3val : Nat → Nat := fun _ => 5

/-- alive3: allocation 1's strong owner has been dropped. -/
def alive3 : Nat → Bool := fun p => p != 1

/-- T3w: allocation 1 (value 5) sits in its home bucket 5 at capacity
8; its owner has been dropped, but `size_` still counts it. -/
def T3w : Table :=
  ⟨[emptyBucket, emptyBucket, emptyBucket, emptyBucket, emptyBucket,
    ⟨some 1, true, 5⟩, emptyBucket, emptyBucket], 1⟩

/-! ## The claims -/

/-- C1: insert-then-member. On every table state reachable by the
public interface, inserting a pointer whose pointee is kept alive by an
external strong owner succeeds, and an immediately following `member`
on the pointee's key returns true: the fresh entry sits on its key's
probe sequence and is not cut off by the Robin Hood early-termination
shortcut. -/
theorem insert_then_member (val F : Nat → Nat) (alive : Nat → Bool)
    (T : Table) (p : Nat) (hR : Reached val F T) (hal : alive p = true) :
    ∃ T2, insert alive val F T p = some T2 ∧
      member alive val F T2 (val p) = true := by
  obtain ⟨T2, h1, _, h3⟩ :=
    insert_member_inv alive val F T p (reached_inv val F T hR) hal
  exact ⟨T2, h1, h3⟩

/-- Witness for C1: a fresh table of capacity 8 and allocation 1 with a
live owner. -/
theorem insert_then_member_witness :
    aliveAll 1 = true ∧
    ∃ T2, insert aliveAll vfun idf (mkTable 8) 1 = some T2 ∧
      member aliveAll vfun idf T2 (vfun 1) = true :=
  ⟨rfl, insert_then_member vfun idf aliveAll (mkTable 8) 1
    (Reached.init 8 (by decide)) rfl⟩

/-- C2: refuted by the generic table's lookup. In
`rh_weak_hash_table::lookup_` the declaration
`const auto* key = weak_trait::key(locked)` shadows the `key`
parameter, so the equality test `equal_(*locked, *key)` compares the
bucket's own pointee with itself and always passes once the truncated
hashes match; `member` then answers true on a mere truncated-hash
collision with no equal-key live entry present (value 5 stored, value
13 queried, both hashing to 1).  The set variant's own `lookup_`
(`member` here) answers false on the same state and query. -/
theorem lookupHT_shadowed_key :
    insert aliveAll c2val c2hash (mkTable 8) 1 = some Tc2 ∧
    mhash c2hash 13 = (bucketAt Tc2.buckets 1).hash_code ∧
    c2val 1 ≠ 13 ∧
    (∀ q, q < Tc2.cap → liveValB aliveAll c2val Tc2.buckets q 13 = false) ∧
    memberHT aliveAll c2val c2hash Tc2 13 = true ∧
    member aliveAll c2val c2hash Tc2 13 = false := by
  decide

/-- C3: expiry invisibility. Once every strong reference to an inserted
value is dropped (its weak pointer no longer locks) and no live entry
with the same key remains, `member` on its key returns false and the
pointer is absent from the iteration sequence, even though the size
counter may still count its stale bucket. -/
theorem expiry_invisibility (alive : Nat → Bool) (val F : Nat → Nat)
    (T : Table) (p : Nat) (hdead : alive p = false)
    (hnolive : ∀ q, q < T.cap → ¬ liveValAt alive val T.buckets q (val p)) :
    member alive val F T (val p) = false ∧ p ∉ iterPtrs alive T := by
  constructor
  · cases hm : member alive val F T (val p) with
    | false => rfl
    | true =>
      exfalso
      unfold member at hm
      obtain ⟨j, hj⟩ := Option.isSome_iff_exists.mp hm
      obtain ⟨hu, _, p2, hp2, ha2, hv2⟩ :=
        lookup_sound alive val F T (val p) j hj
      have hjlt : j < T.cap := lt_length_of_used T.buckets j hu
      exact hnolive j hjlt ⟨hu, p2, hp2, ha2, hv2⟩
  · exact expired_not_in_iterPtrs alive T p hdead

/-- Witness for C3: allocation 1 (value 5) sits in bucket 5 of `T3w`,
its owner dropped; `size_` still records 1. -/
theorem expiry_invisibility_witness :
    alive3 1 = false ∧ T3w.size_ = 1 ∧
    member alive3 c3val idf T3w (c3val 1) = false ∧
    1 ∉ iterPtrs alive3 T3w := by
  have hb : ∀ q, q < T3w.cap →
      liveValB alive3 c3val T3w.buckets q (c3val 1) = false := by decide
  have h := expiry_invisibility alive3 c3val idf T3w 1 rfl
    (fun q hq hl => by
      rw [liveValAt_iff_liveValB] at hl
      rw [hb q hq] at hl
      exact absurd hl (by simp))
  exact ⟨rfl, rfl, h.1, h.2⟩

/-- C7: refuted. `fixed_vector::clear()` destroys every constructed
element and allocates a zero-length buffer, but never resets the
`size_` field: after `clear()` on a two-element vector the elements are
released, yet `size()` still reports 2, not 0.  (Subsequent indexing
through `operator[]`, `at`, or the destructor's `deallocate_` loop then
touches destroyed storage.) -/
theorem clear_keeps_size :
    ((mkFixedVector 2 (7 : Nat)).clear).data = [] ∧
    fixed_vector.size ((mkFixedVector 2 (7 : Nat)).clear) = 2 ∧
    ¬ fixed_vector.size ((mkFixedVector 2 (7 : Nat)).clear) = 0 := by
  decide

/-- C8: refuted for move assignment. The move constructor delegates to
the default constructor and swaps, so its source ends with size 0; but
move assignment swaps and then calls `clear()` on the source, and since
`clear()` never resets `size_` (C7), the source is left reporting the
target's old size — 1 here, not 0. -/
theorem move_source_size :
    fixed_vector.size
      (fixed_vector.moveConstruct (mkFixedVector 2 (5 : Nat))).2 = 0 ∧
    fixed_vector.size
      (fixed_vector.moveAssign (mkFixedVector 1 (7 : Nat))
        (mkFixedVector 2 (5 : Nat))).2 = 1 ∧
    ¬ fixed_vector.size
      (fixed_vector.moveAssign (mkFixedVector 1 (7 : Nat))
        (mkFixedVector 2 (5 : Nat))).2 = 0 := by
  decide

/-- C9: bounds-checked access. When the element list is consistent with
the size field, `at(i)` throws `std::range_error` (modelled `none`)
exactly when `i ≥ size()`, and otherwise returns element `i` of the
buffer.  No operation of the table catches this exception: the table
indexes its bucket vector through unchecked `operator[]` only. -/
theorem at_checks_bounds (X : Type) [Inhabited X] (v : fixed_vector X)
    (i : Nat) (hwf : v.data.length = v.size_) :
    (v.atc i = none ↔ fixed_vector.size v ≤ i) ∧
    (∀ h : i < v.data.length, v.atc i = some (v.data.get ⟨i, h⟩)) := by
  constructor
  · show (if v.size_ ≤ i then none else some (v.data.getD i default)) =
      none ↔ v.size_ ≤ i
    by_cases hle : v.size_ ≤ i
    · rw [if_pos hle]
      simp [hle]
    · rw [if_neg hle]
      simp [hle]
  · intro h
    show (if v.size_ ≤ i then none else some (v.data.getD i default)) =
      some (v.data.get ⟨i, h⟩)
    rw [if_neg (by omega)]
    rw [List.getD_eq_getElem v.data default (by omega)]
    rfl

/-- Witness for C9: a three-element vector probed inside and outside
its bounds. -/
theorem at_checks_bounds_witness :
    (mkFixedVector 3 (7 : Nat)).data.length =
      (mkFixedVector 3 (7 : Nat)).size_ ∧
    (((mkFixedVector 3 (7 : Nat)).atc 1 = none ↔
        fixed_vector.size (mkFixedVector 3 (7 : Nat)) ≤ 1) ∧
      (∀ h : 1 < (mkFixedVector 3 (7 : Nat)).data.length,
        (mkFixedVector 3 (7 : Nat)).atc 1 =
          some ((mkFixedVector 3 (7 : Nat)).data.get ⟨1, h⟩))) :=
  ⟨by decide, at_checks_bounds Nat (mkFixedVector 3 (7 : Nat)) 1 (by decide)⟩

/-- C10: the pair-both-weak handle shape. The handle reports expired
exactly when at least one of its two weak components is expired;
locking yields the pair of strong pointers exactly when both components
lock, and otherwise yields the empty view `{nullptr, nullptr}`, from
which `key` extraction returns null.  `lock()` is const: the model's
handle is read, never rewritten, by the attempt. -/
theorem weak_pair_contract (alive : Nat → Bool) (h : weak_pair) :
    (weak_pair.expired alive h = true ↔
      (alive h.first = false ∨ alive h.second = false)) ∧
    (weak_pair.lock alive h = (some h.first, some h.second) ↔
      (alive h.first = true ∧ alive h.second = true)) ∧
    ((alive h.first = false ∨ alive h.second = false) →
      weak_pair.lock alive h = (none, none) ∧
      weak_pair.keyOf (weak_pair.lock alive h) = none) := by
  unfold weak_pair.expired weak_pair.lock weak_pair.keyOf
  cases ha : alive h.first <;> cases hb : alive h.second <;> simp

/-- Witness for C10: the handle `⟨1, 2⟩` under an aliveness view where
the second component is expired. -/
theorem weak_pair_contract_witness :
    (weak_pair.expired (fun p => p == 1) ⟨1, 2⟩ = true) ∧
    (weak_pair.lock (fun p => p == 1) ⟨1, 2⟩ = (none, none)) ∧
    (weak_pair.keyOf (weak_pair.lock (fun p => p == 1) ⟨1, 2⟩) = none) := by
  have h := weak_pair_contract (fun p => p == 1) ⟨1, 2⟩
  have hd := h.2.2 (Or.inr rfl)
  exact ⟨h.1.mpr (Or.inr rfl), hd.1, hd.2⟩

/-- C6: growth safety. In every reachable state, whenever the growth
check fires after the raw insertion step, `maybe_grow_` calls `resize_`
with exactly double the current capacity (so capacity never decreases),
the asserted precondition `new_capacity > size_` of `resize_` holds —
the assertion never fires — and the resize succeeds. -/
theorem growth_doubles (val F : Nat → Nat) (alive : Nat → Bool)
    (T Tmid : Table) (p : Nat) (hR : Reached val F T) (hal : alive p = true)
    (hmid : insert_ alive val T (mhash F (val p)) p = some Tmid)
    (htrig : 4 * Tmid.size_ > 3 * Tmid.cap) :
    maybe_grow_ alive val Tmid = resize_ alive val Tmid (2 * Tmid.cap) ∧
    Tmid.cap ≤ 2 * Tmid.cap ∧
    Tmid.size_ < 2 * Tmid.cap ∧
    ∃ T2, resize_ alive val Tmid (2 * Tmid.cap) = some T2 ∧
      T2.cap = 2 * Tmid.cap := by
  obtain ⟨hcap, hsz, hused, hhc⟩ := reached_inv val F T hR
  have hlen : T.cap = T.buckets.length := rfl
  obtain ⟨u, hu, huu⟩ := exists_unused_of_lt T.buckets (by omega)
  set hash := mhash F (val p) with hhash
  set home := which_bucket_ T.cap hash with hhome
  have hhlt : home < T.buckets.length := by
    rw [hhome, ← hlen]
    exact Nat.mod_lt _ hcap
  set mf := probe_distance_ T.buckets.length u home with hmf
  have hmflt : mf < T.buckets.length := probe_distance_lt _ _ _ hu hhlt
  have hdecu : (home + mf) % T.buckets.length = u :=
    probe_distance_decomp T.buckets.length u home hu hhlt
  obtain ⟨T1, heq1, hc1, _, _, hs1a, hs1b, hdelta, hhc1⟩ :=
    insert_member_core alive val F T p mf hcap (by omega)
      (by
        show freeB alive (bucketAt T.buckets ((home + mf) % T.cap)) = true
        rw [hlen, hdecu]
        unfold freeB
        rw [huu]
        simp)
      hhc hal
  rw [hmid] at heq1
  cases Option.some_inj.mp heq1
  have hsz1 : Tmid.size_ = usedCount Tmid.buckets := by omega
  have hcap1 : Tmid.cap = Tmid.buckets.length := rfl
  have hucle := usedCount_le Tmid.buckets
  have hszlt : Tmid.size_ < 2 * Tmid.cap := by omega
  obtain ⟨T2, heq2, hcap2, _, _, _, _⟩ :=
    resize_good alive val F Tmid (2 * Tmid.cap) hhc1 hsz1 hszlt
  refine ⟨?_, by omega, hszlt, T2, heq2, hcap2⟩
  unfold maybe_grow_
  rw [if_pos htrig]

/-- Witness for C6: the fourth insert on initial capacity 4 fills the
table (`Tmidc`), the ratio check fires, and growth runs to capacity
8. -/
theorem growth_doubles_witness :
    4 * Tmidc.size_ > 3 * Tmidc.cap ∧
    (maybe_grow_ aliveAll vfun Tmidc =
        resize_ aliveAll vfun Tmidc (2 * Tmidc.cap) ∧
      Tmidc.cap ≤ 2 * Tmidc.cap ∧
      Tmidc.size_ < 2 * Tmidc.cap ∧
      ∃ T2, resize_ aliveAll vfun Tmidc (2 * Tmidc.cap) = some T2 ∧
        T2.cap = 2 * Tmidc.cap) :=
  ⟨by decide,
   growth_doubles vfun idf aliveAll Tcc Tmidc 4
     (Reached.step aliveAll Tbc Tcc 3
       (Reached.step aliveAll Tac Tbc 2
         (Reached.step aliveAll (mkTable 4) Tac 1
           (Reached.init 4 (by decide)) rfl (by decide))
         rfl (by decide))
       rfl (by decide))
     rfl (by decide) (by decide)⟩

/-- C4 (amended): the rebuild a growth event performs is exact at the
moment it runs.  From any reachable state, `resize_` to double capacity
— re-inserting every still-lockable used bucket — succeeds and yields a
table whose `member`-visible keys and whose iteration sequence are
exactly the keys live at that moment, with no duplicates.  The original
end-state claim is refuted by `growth_then_expiry_loses`: after a
growth event, later expiry plus the reclaim-in-place branch of
`insert_` can cut a still-live key off its probe sequence and leave
duplicate live entries. -/
theorem growth_rebuild_exact (val F : Nat → Nat) (alive : Nat → Bool)
    (T : Table) (hR : Reached val F T) :
    ∃ T2, resize_ alive val T (2 * T.cap) = some T2 ∧
      T2.cap = 2 * T.cap ∧
      (∀ k, member alive val F T2 k = true ↔
        ∃ q, q < T.cap ∧ liveValAt alive val T.buckets q k) ∧
      (iterVals alive val T2).Nodup ∧
      (∀ k, k ∈ iterVals alive val T2 ↔
        ∃ q, q < T.cap ∧ liveValAt alive val T.buckets q k) := by
  obtain ⟨hcap, hsz, hused, hhc⟩ := reached_inv val F T hR
  obtain ⟨T2, heq, hc2, hG2, hs2, hcnt, hmem⟩ :=
    resize_good alive val F T (2 * T.cap) hhc hsz (by omega)
  have hcap2 : 0 < T2.cap := by omega
  have hlen2 : T2.cap = T2.buckets.length := rfl
  refine ⟨T2, heq, hc2, ?_,
    iterVals_nodup alive val (fun v => mhash F v) T2 hG2, ?_⟩
  · intro k
    constructor
    · intro hm
      unfold member at hm
      obtain ⟨j, hj⟩ := Option.isSome_iff_exists.mp hm
      obtain ⟨hu, _, p2, hp2, _, hv2⟩ := lookup_sound alive val F T2 k j hj
      have hjlt : j < T2.buckets.length := lt_length_of_used T2.buckets j hu
      refine (hmem k).mp ⟨j, hjlt, hu, ?_⟩
      unfold bval
      rw [hp2]
      exact hv2
    · intro hx
      exact memVal_member alive val F T2 k hG2 hcap2 ((hmem k).mpr hx)
  · intro k
    rw [mem_iterVals alive val T2 k]
    constructor
    · rintro ⟨q, hq, hu, p2, hp2, ha2, hv2⟩
      refine (hmem k).mp ⟨q, by omega, hu, ?_⟩
      unfold bval
      rw [hp2]
      exact hv2
    · intro hx
      obtain ⟨q, hq, hu, hv⟩ := (hmem k).mpr hx
      obtain ⟨p2, hp2, ha2⟩ := hG2.allLive q hq hu
      unfold bval at hv
      rw [hp2] at hv
      exact ⟨q, by omega, hu, p2, hp2, ha2, hv⟩

/-- Witness for C4: the rebuild from the reached state `T4c` under the
aliveness view `alive2`. -/
theorem growth_rebuild_exact_witness :
    ∃ T2, resize_ alive2 vfun T4c (2 * T4c.cap) = some T2 ∧
      T2.cap = 2 * T4c.cap ∧
      (∀ k, member alive2 vfun idf T2 k = true ↔
        ∃ q, q < T4c.cap ∧ liveValAt alive2 vfun T4c.buckets q k) ∧
      (iterVals alive2 vfun T2).Nodup ∧
      (∀ k, k ∈ iterVals alive2 vfun T2 ↔
        ∃ q, q < T4c.cap ∧ liveValAt alive2 vfun T4c.buckets q k) :=
  growth_rebuild_exact vfun idf alive2 T4c
    (Reached.step aliveAll Tcc T4c 4
      (Reached.step aliveAll Tbc Tcc 3
        (Reached.step aliveAll Tac Tbc 2
          (Reached.step aliveAll (mkTable 4) Tac 1
            (Reached.init 4 (by decide)) rfl (by decide))
          rfl (by decide))
        rfl (by decide))
      rfl (by decide))

/-- C5 (amended): replace on a findable equal key.  When `lookup_`
currently finds an entry for key `k`, inserting a live pointer `p2`
with that key through `insert_` succeeds without incrementing the size
counter, and a subsequent `lookup_` on `k` returns a bucket that holds
`p2` itself — the locked value is v2, not v1.  The original claim's
"exactly one live entry for that key" part is refuted by
`insert_equal_key_duplicates`: when the walk meets an expired bucket
before the equal-key entry, the reclaim branch fires first and two live
equal-key entries remain. -/
theorem insert_equal_key_replaces (alive : Nat → Bool) (val F : Nat → Nat)
    (T : Table) (k p2 e : Nat)
    (hfound : lookup_ alive val F T k = some e)
    (hal2 : alive p2 = true) (hkey : val p2 = k) :
    ∃ T1, insert_ alive val T (mhash F (val p2)) p2 = some T1 ∧
      T1.size_ = T.size_ ∧
      ∃ j, lookup_ alive val F T1 (val p2) = some j ∧
        (bucketAt T1.buckets j).ptr = some p2 := by
  classical
  subst hkey
  set hash := mhash F (val p2) with hhash
  set bs := T.buckets with hbs
  have hlen : T.cap = bs.length := rfl
  have hsound := lookup_sound alive val F T (val p2) e hfound
  have helt : e < bs.length := lt_length_of_used bs e hsound.1
  have hpos : 0 < bs.length := by omega
  set home := which_bucket_ T.cap hash with hhome
  have hhlt : home < bs.length := by
    rw [hhome, ← hlen]
    exact Nat.mod_lt _ (by omega)
  have h0 : (home + 0) % bs.length = home := by
    rw [Nat.add_zero]
    exact Nat.mod_eq_of_lt hhlt
  have hfound2 : lookupLoop alive val bs hash (val p2) (T.cap + 1)
      ((home + 0) % bs.length) 0 = some e := by
    rw [h0]
    exact hfound
  obtain ⟨d, _, hde, hpass, hud, hpdd, hmd⟩ :=
    lookupLoop_walk alive val bs hash (val p2) home hhlt (T.cap + 1) 0 e
      hfound2
  have hdlt : d < bs.length := by
    have h1 : pdAt bs ((home + d) % bs.length) < bs.length := by
      unfold pdAt which_bucket_
      exact probe_distance_lt _ _ _ (Nat.mod_lt _ (by omega))
        (Nat.mod_lt _ (by omega))
    omega
  have hPd : contB alive val bs hash p2 home d = false := by
    unfold contB
    rw [hmd]
    simp
  have hPex : ∃ i, contB alive val bs hash p2 home i = false := ⟨d, hPd⟩
  set dj := Nat.find hPex with hdj
  have hstopj : contB alive val bs hash p2 home dj = false :=
    Nat.find_spec hPex
  have hjd : dj ≤ d := Nat.find_min' hPex hPd
  have hdjlt : dj < bs.length := by omega
  have hcont : ∀ i, i < dj → contB alive val bs hash p2 home i = true := by
    intro i hi
    have hne := Nat.find_min hPex (hdj ▸ hi)
    cases hc : contB alive val bs hash p2 home i
    · exact absurd hc hne
    · rfl
  have hstop2 :
      ((bucketAt bs ((home + dj) % bs.length)).used = true ∧
        lockB alive (bucketAt bs ((home + dj) % bs.length)) = none) ∨
      ((bucketAt bs ((home + dj) % bs.length)).used = true ∧
        matchB alive val bs hash (val p2) ((home + dj) % bs.length) =
          true) := by
    rcases Nat.lt_or_ge dj d with hlt | hge
    · obtain ⟨hu, hpd2, hnm⟩ := hpass dj (Nat.zero_le _) hlt
      refine Or.inl ⟨hu, ?_⟩
      by_cases hlk : (lockB alive
          (bucketAt bs ((home + dj) % bs.length))).isSome = true
      · exfalso
        have hct : contB alive val bs hash p2 home dj = true :=
          (contB_true_iff alive val bs hash p2 home dj).mpr
            ⟨hu, hlk, hnm, hpd2⟩
        rw [hstopj] at hct
        exact absurd hct (by simp)
      · cases hl : lockB alive (bucketAt bs ((home + dj) % bs.length)) with
        | none => rfl
        | some l => rw [hl] at hlk; simp at hlk
    · have hdeq : dj = d := by omega
      rw [hdeq]
      exact Or.inr ⟨hud, hmd⟩
  have husedj : (bucketAt bs ((home + dj) % bs.length)).used = true := by
    rcases hstop2 with ⟨h, _⟩ | ⟨h, _⟩ <;> exact h
  have hins := insertLoop_stops alive val bs T.size_ hash p2 home dj
    (fun i hi =>
      (contB_true_iff alive val bs hash p2 home i).mp (hcont i hi))
    (Or.inr hstop2) dj T.cap 0 (by omega) (by omega)
  rw [h0, if_pos husedj] at hins
  set nb : Bucket := ⟨some p2, true, hash⟩ with hnb
  set bs1 := bs.set ((home + dj) % bs.length) nb with hbs1
  have hlen1 : bs1.length = bs.length := by
    rw [hbs1]
    exact List.length_set _ _ _
  have hqjlt : (home + dj) % bs.length < bs.length := Nat.mod_lt _ (by omega)
  refine ⟨⟨bs1, T.size_⟩, ?_, rfl, ?_⟩
  · unfold insert_
    rw [← hhome, ← hbs, hins]
  · have hself : bucketAt bs1 ((home + dj) % bs.length) = nb := by
      rw [hbs1]
      exact bucketAt_set_self bs _ _ hqjlt
    have hwb1 : which_bucket_ bs1.length hash = home := by
      unfold which_bucket_
      rw [hlen1, hhome]
      rfl
    have hpre1 : ∀ i, i < dj →
        (bucketAt bs1 ((home + i) % bs1.length)).used = true ∧
        i ≤ pdAt bs1 ((home + i) % bs1.length) ∧
        matchB alive val bs1 hash (val p2) ((home + i) % bs1.length) =
          false := by
      intro i hi
      obtain ⟨hcu, hclk, hcm, hcpd⟩ :=
        (contB_true_iff alive val bs hash p2 home i).mp (hcont i hi)
      have hilt : i < bs.length := by omega
      have hne : (home + dj) % bs.length ≠ (home + i) % bs.length :=
        walk_ne bs.length home dj i hhlt hdjlt hilt (by omega)
      have hposeq : (home + i) % bs1.length = (home + i) % bs.length := by
        rw [hlen1]
      have hbeq : bucketAt bs1 ((home + i) % bs.length) =
          bucketAt bs ((home + i) % bs.length) := by
        rw [hbs1]
        exact bucketAt_set_ne bs _ _ nb hne
      refine ⟨?_, ?_, ?_⟩
      · rw [hposeq, hbeq]
        exact hcu
      · rw [hposeq]
        have hpdeq : pdAt bs1 ((home + i) % bs.length) =
            pdAt bs ((home + i) % bs.length) := by
          rw [hbs1]
          exact pdAt_set_ne bs _ _ nb hne
        rw [hpdeq]
        exact hcpd
      · rw [hposeq]
        unfold matchB
        rw [hbeq]
        unfold matchB at hcm
        exact hcm
    have hus1 : (bucketAt bs1 ((home + dj) % bs1.length)).used = true := by
      rw [hlen1, hself]
    have hpd1 : dj ≤ pdAt bs1 ((home + dj) % bs1.length) := by
      rw [hlen1]
      unfold pdAt
      rw [hself, hlen1]
      have hwb2 : which_bucket_ bs.length nb.hash_code = home := by
        unfold which_bucket_
        rw [hhome]
        rfl
      rw [hwb2]
      rw [probe_distance_mod bs.length home dj hhlt hdjlt]
    have hm1 : matchB alive val bs1 hash (val p2)
        ((home + dj) % bs1.length) = true := by
      rw [hlen1]
      unfold matchB
      rw [hself]
      show (hash == nb.hash_code &&
        match lockB alive nb with
        | some locked => val locked == val p2
        | none => false) = true
      unfold lockB
      rw [hnb]
      simp [hal2]
    have hfind := lookupLoop_finds alive val bs1 hash (val p2) home dj
      hpre1 hus1 hpd1 hm1 dj (bs1.length + 1) 0 (by omega) (by omega)
    have h01 : (home + 0) % bs1.length = home := by
      rw [Nat.add_zero, hlen1]
      exact Nat.mod_eq_of_lt hhlt
    rw [h01] at hfind
    refine ⟨(home + dj) % bs1.length, ?_, ?_⟩
    · show lookupLoop alive val bs1 hash (val p2) (bs1.length + 1)
        (which_bucket_ bs1.length hash) 0 = some ((home + dj) % bs1.length)
      rw [hwb1]
      exact hfind
    · rw [hlen1, hself]

/-- Witness for C5: on `T4c` the key 1 is findable at bucket 3;
inserting allocation 5 (key 1, live) leaves the size counter at 4, and
a fresh lookup returns a bucket holding allocation 5. -/
theorem insert_equal_key_replaces_witness :
    lookup_ alive2 vfun idf T4c (vfun 5) = some 3 ∧ alive2 5 = true ∧
    ∃ T1, insert_ alive2 vfun T4c (mhash idf (vfun 5)) 5 = some T1 ∧
      T1.size_ = T4c.size_ ∧
      ∃ j, lookup_ alive2 vfun idf T1 (vfun 5) = some j ∧
        (bucketAt T1.buckets j).ptr = some 5 :=
  ⟨by decide, by decide,
   insert_equal_key_replaces alive2 vfun idf T4c (vfun 5) 5 3 (by decide)
     (by decide) rfl⟩

/-- Counterexample to C5 as stated: on `T4c` allocation 4 (key 1) is
live and findable at bucket 3, allocation 5 holds the equal key 1, yet
after `insert` the table holds two live entries for key 1 (buckets 1
and 3): the reclaim branch fired on the expired bucket 1 before the
walk reached the equal-key entry.  The other two parts hold: lookup now
locks allocation 5 and the size counter stays 4. -/
theorem insert_equal_key_duplicates :
    lookup_ alive2 vfun idf T4c 1 = some 3 ∧
    (bucketAt T4c.buckets 3).ptr = some 4 ∧ alive2 4 = true ∧ vfun 4 = 1 ∧
    alive2 5 = true ∧ vfun 5 = 1 ∧
    insert alive2 vfun idf T4c 5 = some T5c ∧ T5c.size_ = T4c.size_ ∧
    lookup_ alive2 vfun idf T5c 1 = some 1 ∧
    (bucketAt T5c.buckets 1).ptr = some 5 ∧
    occupiedB alive2 (bucketAt T5c.buckets 1) = true ∧
    occupiedB alive2 (bucketAt T5c.buckets 3) = true ∧
    (bucketAt T5c.buckets 3).ptr = some 4 := by
  decide

/-- Counterexample to C4 as stated: five inserts on initial capacity 4.
The fourth triggers growth to capacity 8 (values 0, 8, 16 chain from
home bucket 0, key 1 lands in bucket 3 at probe distance 2).  Then
allocation 2 expires and inserting allocation 5 (key 1) reclaims dead
bucket 1 in place, at probe distance 0 of its own home.  Allocation 3
(value 16, still alive) now sits behind a bucket whose probe distance
is shallower than the searcher's, so the Robin Hood shortcut cuts its
lookup off: `member 16` is false, and iteration yields key 1 twice. -/
theorem growth_then_expiry_loses :
    insert aliveAll vfun idf (mkTable 4) 1 = some Tac ∧
    insert aliveAll vfun idf Tac 2 = some Tbc ∧
    insert aliveAll vfun idf Tbc 3 = some Tcc ∧
    insert aliveAll vfun idf Tcc 4 = some T4c ∧
    T4c.cap = 2 * Tcc.cap ∧
    insert alive2 vfun idf T4c 5 = some T5c ∧
    alive2 3 = true ∧ vfun 3 = 16 ∧
    member alive2 vfun idf T5c 16 = false ∧
    iterVals alive2 vfun T5c = [0, 1, 16, 1] ∧
    ¬ (iterVals alive2 vfun T5c).Nodup := by
  decide

end Intersections
